import Mathlib

/-!
Verification development for the HTML-archive conversion pipeline in
`parse_html.py`.  The Python code is shallowly embedded: strings are lists
of characters (`Str`), each Python function of the per-document pipeline
becomes an executable Lean definition with the same name, and regular
expressions are realised by explicit scanning functions that implement the
leftmost, greedy, non-overlapping semantics of `re.search` / `re.sub` for
the concrete patterns appearing in the source.  Recursions that consume a
variable number of characters per step carry a fuel argument; every
wrapper supplies `length + 1` fuel, which is enough because each step
consumes at least one character.
-/

set_option maxRecDepth 100000

/-- Characters of a Python string, in order. -/
abbrev Str := List Char

/-- Shorthand turning a Lean string literal into the character-list model. -/
def S (s : String) : Str := s.data

/-- Python regex word character `\w` (with `re.UNICODE`, the default).
Modelled for the character repertoire of this program: ASCII alphanumerics,
underscore, and CJK unified ideographs (which Python treats as word
characters).  Other code points (punctuation, fullwidth punctuation,
whitespace) are non-word, as in Python. -/
def isWordC (c : Char) : Bool :=
  c.isAlphanum || c = '_' || (0x4E00 ≤ c.toNat && c.toNat ≤ 0x9FFF)

/-- ASCII decimal digit, Python regex `\d` for this program's data. -/
def isDigitC (c : Char) : Bool := c.isDigit

/-- Python `\s` / `str.strip` whitespace, modelled on the ASCII set. -/
def isSpaceC (c : Char) : Bool :=
  c = ' ' || c = '\t' || c = '\n' || c = '\r' || c = '\x0b' || c = '\x0c'

/-- Python `str.lower`, modelled on ASCII letters (CJK text is fixed by
`lower`, as in Python). -/
def lowC (c : Char) : Char := c.toLower

/-- Python `str.lower` over a whole string. -/
def pyLower (s : Str) : Str := s.map lowC

/-- Python `str.strip()`: remove leading and trailing whitespace. -/
def pyStrip (s : Str) : Str :=
  ((s.dropWhile isSpaceC).reverse.dropWhile isSpaceC).reverse

/-- Python substring containment `needle in hay`. -/
def containsSub (hay needle : Str) : Bool :=
  if needle.isPrefixOf hay then true
  else match hay with
    | [] => false
    | _ :: t => containsSub t needle

/-- Python `str.replace(old, new)`: replace every non-overlapping
occurrence, scanning left to right. -/
def pyReplaceGo (fuel : Nat) (s old new : Str) : Str :=
  match fuel, s with
  | 0, _ => s
  | _, [] => []
  | f + 1, c :: t =>
    if old.isPrefixOf (c :: t) then
      new ++ pyReplaceGo f ((c :: t).drop old.length) old new
    else
      c :: pyReplaceGo f t old new

/-- Python `str.replace` (all uses in the source have non-empty `old`;
for `old = []` this returns the string unchanged). -/
def pyReplace (s old new : Str) : Str :=
  if old.isEmpty then s else pyReplaceGo (s.length + 1) s old new

/-- Python `'\n'.join(parts)` and friends. -/
def pyJoin (sep : Str) (parts : List Str) : Str := List.intercalate sep parts

/-- Python `s.split(sep)` for the separator `'\n'`. -/
def pySplitNl (s : Str) : List Str := List.splitOn '\n' s

/-- Python `s[:n]`. -/
def pyTake (n : Nat) (s : Str) : Str := s.take n

/-- Python `s[-n:]` (the whole string when `len(s) ≤ n`). -/
def pyTakeLast (n : Nat) (s : Str) : Str := s.drop (s.length - n)

/-- Python `os.path.basename` for slash-separated paths. -/
def pyBasename (s : Str) : Str :=
  (s.reverse.takeWhile (fun c => c ≠ '/')).reverse

/-- Python `any(kw in text for kw in kws)`. -/
def anyKwIn (kws : List Str) (text : Str) : Bool :=
  kws.any (fun kw => containsSub text kw)

/-! ## Markup tokenizer

Model of the behaviour of Python's `html.parser.HTMLParser` (with the
default `convert_charrefs=True`) on the event stream that
`HTMLContentExtractor` consumes: start tags, end tags and character data.
Tag names are lowercased as in `html.parser`; a self-closing tag produces a
start event followed by an end event (`handle_startendtag`'s default); an
unknown marked-section keyword (`<![foo]>`) raises inside the parser, which
the model renders as `Except.error` — this is the extraction-failure path
of `parse_html_file`'s `try`/`except`. -/

inductive HTok where
  | hstart (name : Str)
  | hend (name : Str)
  | hdata (d : Str)
deriving DecidableEq

def isAlphaC (c : Char) : Bool := c.isAlpha

/-- Characters of a tag name, after the leading letter. -/
def isNameC (c : Char) : Bool :=
  c.isAlphanum || c = '-' || c = '.' || c = ':' || c = '_'

/-- Characters of a marked-section keyword (`_markupbase._scan_name`). -/
def isMsNameC (c : Char) : Bool :=
  c.isAlphanum || c = '-' || c = '.' || c = '_'

/-- Drop everything up to and including the first occurrence of `pat`. -/
def skipPast (pat : Str) (s : Str) : Option Str :=
  match s with
  | [] => none
  | c :: t =>
    if pat.isPrefixOf (c :: t) then some ((c :: t).drop pat.length)
    else skipPast pat t

def sectBracketNames : List Str :=
  [S "temp", S "cdata", S "ignore", S "include", S "rcdata"]

def sectCondNames : List Str := [S "if", S "else", S "endif"]

def tokGo (fuel : Nat) (s : Str) : Except Unit (List HTok) :=
  match fuel, s with
  | 0, _ => Except.error ()
  | _, [] => Except.ok []
  | f + 1, '<' :: t =>
    match t with
    | '/' :: t2 =>
      let nm := t2.takeWhile isNameC
      match skipPast (S ">") (t2.drop nm.length) with
      | some t3 => (tokGo f t3).map (fun r => HTok.hend (pyLower nm) :: r)
      | none => Except.error ()
    | '!' :: '-' :: '-' :: t2 =>
      match skipPast (S "-->") t2 with
      | some t3 => tokGo f t3
      | none => Except.error ()
    | '!' :: '[' :: t2 =>
      match t2 with
      | c2 :: _ =>
        if isAlphaC c2 then
          let nm := pyLower (t2.takeWhile isMsNameC)
          if nm ∈ sectBracketNames then
            match skipPast (S "]>") t2 with
            | some t3 => tokGo f t3
            | none => Except.error ()
          else if nm ∈ sectCondNames then
            match skipPast (S "]") t2 with
            | some t3 => tokGo f t3
            | none => Except.error ()
          else Except.error ()
        else Except.error ()
      | [] => Except.error ()
    | '!' :: t2 =>
      match skipPast (S ">") t2 with
      | some t3 => tokGo f t3
      | none => Except.error ()
    | '?' :: t2 =>
      match skipPast (S ">") t2 with
      | some t3 => tokGo f t3
      | none => Except.error ()
    | c2 :: t2 =>
      if isAlphaC c2 then
        let nm := pyLower ((c2 :: t2).takeWhile isNameC)
        let rest1 := (c2 :: t2).drop nm.length
        let attrs := rest1.takeWhile (fun c => c ≠ '>')
        match rest1.drop attrs.length with
        | _ :: t4 =>
          let toks :=
            if attrs.getLast? = some '/' then [HTok.hstart nm, HTok.hend nm]
            else [HTok.hstart nm]
          (tokGo f t4).map (fun r => toks ++ r)
        | [] => Except.error ()
      else
        (tokGo f (c2 :: t2)).map (fun r => HTok.hdata ['<'] :: r)
    | [] => Except.ok [HTok.hdata ['<']]
  | f + 1, c :: t =>
    let d := (c :: t).takeWhile (fun x => x ≠ '<')
    (tokGo f ((c :: t).drop d.length)).map (fun r => HTok.hdata d :: r)

/-- Adjacent data chunks are delivered to `handle_data` as one call
(`convert_charrefs=True` buffers character data until the next tag). -/
def mergeData : List HTok → List HTok
  | [] => []
  | HTok.hdata d :: r =>
    match mergeData r with
    | HTok.hdata e :: r2 => HTok.hdata (d ++ e) :: r2
    | r2 => HTok.hdata d :: r2
  | tok :: r => tok :: mergeData r

def tokenize (s : Str) : Except Unit (List HTok) :=
  (tokGo (s.length + 1) s).map mergeData

/-! ## HTMLContentExtractor (src/parse_html.py lines 14-77) -/

def ui_keywords : List Str :=
  [S "下載 App", S "所有看板", S "即時熱門看板", S "創作者排行榜",
   S "最近造訪", S "查看全部", S "追蹤的看板", S "查看所有文章",
   S "Dcard 精選看板", S "服務條款", S "幫助中心", S "品牌識別",
   S "徵才", S "商業合作", S "隱私政策", S "看板首頁", S "回到頂部"]

structure ExtState where
  in_script : Bool
  in_style : Bool
  in_nav : Bool
  in_aside : Bool
  in_article : Bool
  text_parts : List Str
deriving DecidableEq

def initExt : ExtState := ⟨false, false, false, false, false, []⟩

def handle_starttag (st : ExtState) (tag : Str) : ExtState :=
  if tag = S "script" then { st with in_script := true }
  else if tag = S "style" then { st with in_style := true }
  else if tag = S "nav" then { st with in_nav := true }
  else if tag = S "aside" then { st with in_aside := true }
  else if tag = S "article" then { st with in_article := true }
  else if tag = S "main" then { st with in_article := true }
  else st

def handle_endtag (st : ExtState) (tag : Str) : ExtState :=
  if tag = S "script" then { st with in_script := false }
  else if tag = S "style" then { st with in_style := false }
  else if tag = S "nav" then { st with in_nav := false }
  else if tag = S "aside" then { st with in_aside := false }
  else if tag = S "article" ∨ tag = S "main" then { st with in_article := false }
  else if tag = S "br" ∧ ¬st.in_nav ∧ ¬st.in_aside then
    { st with text_parts := st.text_parts ++ [S "\n"] }
  else if tag = S "p" ∧ ¬st.in_nav ∧ ¬st.in_aside then
    { st with text_parts := st.text_parts ++ [S "\n"] }
  else st

def handle_data (st : ExtState) (d : Str) : ExtState :=
  if ¬st.in_script ∧ ¬st.in_style ∧ ¬st.in_nav ∧ ¬st.in_aside then
    let text := pyStrip d
    if text ≠ [] ∧ anyKwIn ui_keywords text = false then
      { st with text_parts := st.text_parts ++ [text] }
    else st
  else st

def feedTok (st : ExtState) : HTok → ExtState
  | HTok.hstart nm => handle_starttag st nm
  | HTok.hend nm => handle_endtag st nm
  | HTok.hdata d => handle_data st d

def runToks (toks : List HTok) : ExtState := toks.foldl feedTok initExt

def get_text (st : ExtState) : Str :=
  let full := pyStrip (pyJoin (S "\n") st.text_parts)
  let lines := pySplitNl full
  let cleaned := lines.filter
    (fun line => anyKwIn ui_keywords line = false ∧ pyStrip line ≠ [])
  pyStrip (pyJoin (S "\n") cleaned)

/-- Does `extractor.feed(html)` raise (the `except` path of lines
240-244)? -/
def extractionFails (html : Str) : Bool :=
  match tokenize html with
  | Except.error _ => true
  | Except.ok _ => false

/-- Body text of a document: `extractor.feed(html); extractor.get_text()`,
with the `try`/`except` of `parse_html_file` lines 240-244 degrading any
parser failure to the empty string. -/
def contentRaw (html : Str) : Str :=
  match tokenize html with
  | Except.ok toks => get_text (runToks toks)
  | Except.error _ => []

/-! ## Metadata regexes (extract_meta, extract_domain, title, platform) -/

def isQuoteC (c : Char) : Bool := c = '"' || c = '\''

/-- Case-insensitive literal-prefix step of a regex (pattern written in
lowercase, subject lowercased as `re.IGNORECASE` does for ASCII). -/
def stripCi (pat s : Str) : Option Str :=
  if pat.isPrefixOf (pyLower (s.take pat.length)) then some (s.drop pat.length)
  else none

/-- Case-sensitive literal-prefix step. -/
def stripLit (pat s : Str) : Option Str :=
  if pat.isPrefixOf s then some (s.drop pat.length) else none

/-- Regex step `\s+`. -/
def stripWs1 (s : Str) : Option Str :=
  let w := s.takeWhile isSpaceC
  if w = [] then none else some (s.drop w.length)

/-- Regex step `["\']`. -/
def stripQuote (s : Str) : Option Str :=
  match s with
  | c :: t => if isQuoteC c then some t else none
  | [] => none

/-- Regex steps `([^"\']+)["\']` — capture up to a closing quote. -/
def capQuote (s : Str) : Option Str :=
  let cap := s.takeWhile (fun c => !isQuoteC c)
  match (s.drop cap.length).head? with
  | some c => if isQuoteC c ∧ cap ≠ [] then some cap else none
  | none => none

/-- Leftmost regex search: try a position matcher at every start offset. -/
def reSearch (m : Str → Option Str) : Str → Option Str
  | [] => m []
  | c :: t =>
    match m (c :: t) with
    | some r => some r
    | none => reSearch m t

/-- Position matcher for
`<meta\s+property=["\']og:url["\']\s+content=["\']([^"\']+)["\']`. -/
def metaUrlAt (s : Str) : Option Str := do
  let s1 ← stripCi (S "<meta") s
  let s2 ← stripWs1 s1
  let s3 ← stripCi (S "property=") s2
  let s4 ← stripQuote s3
  let s5 ← stripCi (S "og:url") s4
  let s6 ← stripQuote s5
  let s7 ← stripWs1 s6
  let s8 ← stripCi (S "content=") s7
  let s9 ← stripQuote s8
  capQuote s9

/-- Position matcher for
`<link\s+rel=["\']canonical["\']\s+href=["\']([^"\']+)["\']`. -/
def metaCanonAt (s : Str) : Option Str := do
  let s1 ← stripCi (S "<link") s
  let s2 ← stripWs1 s1
  let s3 ← stripCi (S "rel=") s2
  let s4 ← stripQuote s3
  let s5 ← stripCi (S "canonical") s4
  let s6 ← stripQuote s5
  let s7 ← stripWs1 s6
  let s8 ← stripCi (S "href=") s7
  let s9 ← stripQuote s8
  capQuote s9

/-- `url = meta.get('og:url') or meta.get('canonical')` (captures are
non-empty, so Python truthiness is just presence). -/
def urlOf (html : Str) : Option Str :=
  match reSearch metaUrlAt html with
  | some u => some u
  | none => reSearch metaCanonAt html

/-- `extract_domain`: the authority component of the URL, modelled from
`urllib.parse.urlparse` for absolute `scheme://host/...` URLs (the shape
`og:url`/`canonical` values take). -/
def extract_domain (url : Option Str) : Option Str :=
  match url with
  | none => none
  | some u =>
    match skipPast (S "://") u with
    | some after =>
      let netloc := after.takeWhile (fun c => c ≠ '/' ∧ c ≠ '?' ∧ c ≠ '#')
      if netloc = [] then none else some netloc
    | none => none

/-- Position matcher for `<title>([^<]+)</title>` (IGNORECASE). -/
def titleCapAt (s : Str) : Option Str :=
  match stripCi (S "<title>") s with
  | none => none
  | some rest =>
    if rest.takeWhile (fun c => c ≠ '<') ≠ [] then
      match stripCi (S "</title>")
          (rest.drop (rest.takeWhile (fun c => c ≠ '<')).length) with
      | some _ => some (rest.takeWhile (fun c => c ≠ '<'))
      | none => none
    else none

/-- Title as assembled by `parse_html_file` lines 247-250: the regex
capture, and — only when `' _ Dcard'` occurs in it — removal of every
`' _ Dcard'` and `' - 看板'` occurrence followed by `strip()`. -/
def titleOf (html : Str) : Option Str :=
  match reSearch titleCapAt html with
  | none => none
  | some t =>
    if t ≠ [] ∧ containsSub t (S " _ Dcard") then
      some (pyStrip (pyReplace (pyReplace t (S " _ Dcard") []) (S " - 看板") []))
    else some t

/-- Position matcher for `看板\s+([^\s]+)` (no flags). -/
def pttBoardAt (s : Str) : Option Str := do
  let s1 ← stripLit (S "看板") s
  let s2 ← stripWs1 s1
  let cap := s2.takeWhile (fun c => !isSpaceC c)
  if cap = [] then none else some cap

/-- Tail of the author regex after `href`: `[^>]*>([^<]+)</a>`
(IGNORECASE). -/
def pttAuthorTail (s : Str) : Option Str :=
  let seg := s.takeWhile (fun c => c ≠ '>')
  match s.drop seg.length with
  | _ :: t =>
    let cap := t.takeWhile (fun c => c ≠ '<')
    if cap ≠ [] then
      match stripCi (S "</a>") (t.drop cap.length) with
      | some _ => some cap
      | none => none
    else none
  | [] => none

/-- The lazy `.*?href` part (DOTALL): try each `href` occurrence, nearest
first, backtracking to later ones if the tail fails. -/
def pttHrefScan : Str → Option Str
  | [] => none
  | c :: t =>
    match stripCi (S "href") (c :: t) with
    | some s1 =>
      match pttAuthorTail s1 with
      | some cap => some cap
      | none => pttHrefScan t
    | none => pttHrefScan t

/-- Position matcher for `作者.*?href[^>]*>([^<]+)</a>`
(IGNORECASE | DOTALL). -/
def pttAuthorAt (s : Str) : Option Str := do
  let s1 ← stripLit (S "作者") s
  pttHrefScan s1

/-- `author_display` as in `parse_html_file` lines 257-264. -/
def author_display (html : Str) : Option Str :=
  if containsSub (pyLower html) (S "ptt") then
    match reSearch pttAuthorAt html with
    | some cap => some (pyStrip cap)
    | none => none
  else none

/-- `board_or_category` as in `parse_html_file` lines 256-275. -/
def board_or_category (html : Str) : Option Str :=
  if containsSub (pyLower html) (S "ptt") then
    reSearch pttBoardAt html
  else if containsSub (pyLower html) (S "dcard") then
    if containsSub html (S "板 _ Dcard") then
      if containsSub html (S "心情板") then some (S "心情")
      else if containsSub html (S "研究所板") then some (S "研究所")
      else if containsSub html (S "心理板") then some (S "心理")
      else none
    else none
  else none

/-! ## PII redactor (obscure_personal_info, src/parse_html.py lines
100-125)

Each regex pass is realised as an explicit scanner with `re`'s leftmost,
greedy, non-overlapping substitution semantics.  `re.sub` matches against
the text it is handed (replacements are never re-matched), and the source
guards each pass with `re.search` before substituting. -/

def prevNonWord : Option Char → Bool
  | none => true
  | some c => !isWordC c

/-- Replacement for `\b\d{8,10}\b`: `m[:2] + '***' + m[-2:]`. -/
def idMask (run : Str) : Str := pyTake 2 run ++ S "***" ++ pyTakeLast 2 run

/-- Does `\b\d{8,10}\b` match at this position (given the previous
character)?  With a greedy bounded repeat this holds exactly when the
maximal digit run here has length 8–10 and both flanks are non-word:
a longer run leaves a digit (word character) after every 8–10 prefix, so
the trailing `\b` fails at every backtracking width. -/
def idRunOK (prev : Option Char) (s : Str) : Bool :=
  let run := s.takeWhile isDigitC
  prevNonWord prev && decide (8 ≤ run.length) && decide (run.length ≤ 10) &&
    (match (s.drop run.length).head? with
     | none => true
     | some c => !isWordC c)

def subIDGo (fuel : Nat) (prev : Option Char) (s : Str) : Str :=
  match fuel, s with
  | 0, _ => s
  | _, [] => []
  | f + 1, c :: t =>
    let run := (c :: t).takeWhile isDigitC
    if idRunOK prev (c :: t) then
      idMask run ++ subIDGo f (some (run.getLastD c)) (t.drop (run.length - 1))
    else c :: subIDGo f (some c) t

def searchIDGo (prev : Option Char) (s : Str) : Bool :=
  match s with
  | [] => false
  | c :: t => idRunOK prev (c :: t) || searchIDGo (some c) t

def subID (s : Str) : Str := subIDGo (s.length + 1) none s

def searchID (s : Str) : Bool := searchIDGo none s

/-- Character class `[\w.-]` of the email pattern. -/
def classE (c : Char) : Bool := isWordC c || c = '.' || c = '-'

/-- A successful match of `[\w.-]+@[\w.-]+\.\w+`: local part, domain part
before the final matched dot, and the `\w+` tail. -/
structure EMatch where
  loc : Str
  dm : Str
  tld : Str
deriving DecidableEq

def ematchStr (em : EMatch) : Str := em.loc ++ '@' :: em.dm ++ '.' :: em.tld

def emLen (em : EMatch) : Nat := (ematchStr em).length

/-- Replacement `m[:2] + '***@' + m.split('@')[1]` (the match has exactly
one `@`, so the split tail is the matched domain, kept verbatim). -/
def emailRepl (em : EMatch) : Str :=
  pyTake 2 (ematchStr em) ++ S "***@" ++ em.dm ++ '.' :: em.tld

/-- Valid backtracking split of the greedy `[\w.-]+\.\w+` inside the
maximal `[\w.-]` run `R` after the `@`: a dot at index `j ≥ 1` followed by
a word character. -/
def emailSplitOK (R : Str) (j : Nat) : Bool :=
  decide (1 ≤ j) && decide (R[j]? = some '.') &&
    (match R[j + 1]? with
     | some c => isWordC c
     | none => false)

/-- Greedy backtracking picks the rightmost valid split. -/
def emailSplit (R : Str) : Option Nat :=
  (List.range R.length).reverse.find? (fun j => emailSplitOK R j)

def emailAt (s : Str) : Option EMatch :=
  if s.takeWhile classE = [] then none
  else
    match s.drop (s.takeWhile classE).length with
    | '@' :: s2 =>
      match emailSplit (s2.takeWhile classE) with
      | some j =>
        some ⟨s.takeWhile classE, (s2.takeWhile classE).take j,
          ((s2.takeWhile classE).drop (j + 1)).takeWhile isWordC⟩
      | none => none
    | _ => none

def subEmailGo (fuel : Nat) (s : Str) : Str :=
  match fuel, s with
  | 0, _ => s
  | _, [] => []
  | f + 1, c :: t =>
    match emailAt (c :: t) with
    | some em => emailRepl em ++ subEmailGo f ((c :: t).drop (emLen em))
    | none => c :: subEmailGo f t

def subEmail (s : Str) : Str := subEmailGo (s.length + 1) s

def searchEmail : Str → Bool
  | [] => false
  | c :: t => (emailAt (c :: t)).isSome || searchEmail t

/-- Separator class `[-.\s]` of the phone pattern. -/
def sepC (c : Char) : Bool := c = '-' || c = '.' || isSpaceC c

/-- Any character a phone match can contain. -/
def phoneC (c : Char) : Bool := isDigitC c || sepC c

/-- `n` leading digits available. -/
def digitsAt (n : Nat) (s : Str) : Bool :=
  decide ((s.take n).length = n) && (s.take n).all isDigitC

/-- Tail `\d{4}[-.\s]?\d{4}` of the phone pattern (the optional separator
is greedy; skipping a present separator cannot succeed, since the next
character is then not a digit). -/
def phoneTail (s : Str) : Option Nat :=
  if digitsAt 4 s then
    let s4 := s.drop 4
    match s4.head? with
    | some c =>
      if sepC c then
        if digitsAt 4 (s4.drop 1) then some 9 else none
      else if digitsAt 4 s4 then some 8 else none
    | none => none
  else none

/-- One star iteration `\d{2,4}[-.\s]?` consuming `d` digits and an
optional separator, then the rest of the pattern via `recf`. -/
def phoneIterWith (recf : Str → Option Nat) (s : Str) (d : Nat) : Option Nat :=
  if digitsAt d s then
    let sd := s.drop d
    match sd.head? with
    | some c =>
      if sepC c then
        (recf (sd.drop 1)).map (fun n => n + d + 1) <|>
          (recf sd).map (fun n => n + d)
      else (recf sd).map (fun n => n + d)
    | none => (recf sd).map (fun n => n + d)
  else none

/-- `(?:\d{2,4}[-.\s]?)*\d{4}[-.\s]?\d{4}` at the current position:
the star is greedy (one more iteration is tried before the tail), each
iteration takes digits greedily (4, then 3, then 2) and the optional
separator greedily, with full backtracking.  Returns the number of
characters matched. -/
def phoneCore : Nat → Str → Option Nat
  | 0, _ => none
  | f + 1, s =>
    phoneIterWith (phoneCore f) s 4 <|>
      (phoneIterWith (phoneCore f) s 3 <|>
        (phoneIterWith (phoneCore f) s 2 <|> phoneTail s))

def phoneAt (s : Str) : Option Nat := phoneCore (s.length + 1) s

/-- Replacement `m[:2] + '***' + m[-3:]`. -/
def phoneRepl (m : Str) : Str := pyTake 2 m ++ S "***" ++ pyTakeLast 3 m

def subPhoneGo (fuel : Nat) (s : Str) : Str :=
  match fuel, s with
  | 0, _ => s
  | _, [] => []
  | f + 1, c :: t =>
    match phoneAt (c :: t) with
    | some n => phoneRepl ((c :: t).take n) ++ subPhoneGo f ((c :: t).drop (max n 1))
    | none => c :: subPhoneGo f t

def subPhone (s : Str) : Str := subPhoneGo (s.length + 1) s

def searchPhone : Str → Bool
  | [] => false
  | c :: t => (phoneAt (c :: t)).isSome || searchPhone t

/-- `obscure_personal_info` (lines 100-125): three guarded passes in fixed
order, each appending its kind to the change log once. -/
def obscure_personal_info (text : Str) : Str × List Str :=
  if text = [] then (text, [])
  else
    let p1 :=
      if searchID text then (subID text, [S "student_id"])
      else (text, ([] : List Str))
    let p2 :=
      if searchEmail p1.1 then (subEmail p1.1, p1.2 ++ [S "email"]) else p1
    let p3 :=
      if searchPhone p2.1 then (subPhone p2.1, p2.2 ++ [S "phone"]) else p2
    p3

/-- Word-boundary condition `\b` to the left of a run placed after `u`:
the character just before the run is the last of `u`, or the scanner's
`prev` when `u` is empty (`none` at the start of the text). -/
def lastNonWord (prev : Option Char) (u : Str) : Bool :=
  match u.getLast? with
  | some c => !isWordC c
  | none => prevNonWord prev

/-- Word-boundary condition `\b` to the right of a run followed by `v`. -/
def headNonWord (v : Str) : Bool :=
  match v.head? with
  | some c => !isWordC c
  | none => true

/-- No email match can extend across the last character of `u` (it is
neither a `[\w.-]` character nor `@`). -/
def lastNotEmailC (u : Str) : Bool :=
  match u.getLast? with
  | some c => !(classE c || c = '@')
  | none => true

/-- The `[\w.-]` run of an email match stops at the head of `v`. -/
def headNotClassE (v : Str) : Bool :=
  match v.head? with
  | some c => !classE c
  | none => true

/-! ## Topic classifier (classify_topic, lines 127-150) -/

/-- Python `str.count`: non-overlapping occurrences, scanning left to
right. -/
def pyCountGo (fuel : Nat) (hay word : Str) : Nat :=
  match fuel, hay with
  | 0, _ => 0
  | _, [] => 0
  | f + 1, c :: t =>
    if word.isPrefixOf (c :: t) then 1 + pyCountGo f ((c :: t).drop word.length) word
    else pyCountGo f t word

/-- Python `str.count` (all keywords are non-empty). -/
def pyCount (hay word : Str) : Nat :=
  if word.isEmpty then 0 else pyCountGo (hay.length + 1) hay word

/-- The fixed ordered keyword table (dict insertion order). -/
def keywordTable : List (Str × List Str) :=
  [(S "研究生壓力", [S "研究所", S "碩士", S "碩班", S "研究", S "考研", S "研究室"]),
   (S "心理健康與情緒", [S "焦慮", S "壓力", S "崩潰", S "憂鬱", S "失眠", S "哭", S "心理", S "情緒"]),
   (S "人際與孤獨", [S "人際", S "孤獨", S "朋友", S "交友", S "孤獨", S "寂寞", S "人緣"]),
   (S "教育決策（休學/轉學/輔系）", [S "休學", S "轉學", S "輔系", S "退學", S "放棄"]),
   (S "校園社群與數位壓力", [S "宿舍", S "社群", S "社團", S "校園", S "校隊"]),
   (S "求職與生涯規劃", [S "求職", S "工作", S "職涯", S "就業", S "面試", S "畢業", S "找工作"])]

def categoryScore (combined : Str) (words : List Str) : Nat :=
  (words.map (fun w => pyCount combined w)).sum

/-- The scores dict, in insertion (= table) order. -/
def scoresList (title content : Str) : List (Str × Nat) :=
  keywordTable.map (fun kv => (kv.1, categoryScore (pyLower (title ++ content)) kv.2))

/-- Python `max(scores, key=scores.get)`: keep the first item, replacing
it only on a strictly greater value. -/
def pyMaxKey (best : Str × Nat) : List (Str × Nat) → Str × Nat
  | [] => best
  | kv :: rest => pyMaxKey (if best.2 < kv.2 then kv else best) rest

def classify_topic (title content : Str) : Str × List Str :=
  let scores := scoresList title content
  match scores with
  | [] => (S "其他", [])
  | kv :: rest =>
    let primary := (pyMaxKey kv rest).1
    let secondary :=
      ((scores.filter (fun p => 0 < p.2 ∧ p.1 ≠ primary)).map (fun p => p.1)).take 3
    (primary, secondary)

/-! ## Risk flags (detect_crisis_flags, lines 164-180) -/

def crisis_keywords : List Str :=
  [S "自殺", S "自傷", S "自我傷害", S "死", S "消失", S "放棄", S "無法活", S "想死"]

def harassment_keywords : List Str :=
  [S "騷擾", S "侵害", S "暴力", S "欺凌", S "霸凌"]

def medical_keywords : List Str :=
  [S "醫生", S "藥物", S "治療", S "診斷", S "症狀"]

def detect_crisis_flags (content : Str) : List Str :=
  (if anyKwIn crisis_keywords (pyLower content) then [S "crisis"] else []) ++
    (if anyKwIn harassment_keywords (pyLower content) then [S "harassment"] else []) ++
      (if anyKwIn medical_keywords (pyLower content) then [S "medical"] else [])

/-! ## Links (extract_links, lines 152-162) -/

structure Link where
  href : Str
  text : Option Str
deriving DecidableEq

/-- Tail of the anchor regex after the `href=` quote:
`([^"\']+)["\'][^>]*>([^<]*)</a>`; returns both captures and the text
after the whole match (`finditer` resumes there). -/
def linkTail (s : Str) : Option (Str × Str × Str) :=
  match (s.drop (s.takeWhile (fun c => !isQuoteC c)).length).head? with
  | some c =>
    if isQuoteC c ∧ s.takeWhile (fun c => !isQuoteC c) ≠ [] then
      match ((s.drop (s.takeWhile (fun c => !isQuoteC c)).length).drop 1).drop
          (((s.drop (s.takeWhile (fun c => !isQuoteC c)).length).drop 1).takeWhile
            (fun x => x ≠ '>')).length with
      | _ :: t =>
        match stripCi (S "</a>") (t.drop (t.takeWhile (fun x => x ≠ '<')).length) with
        | some rest =>
          some (s.takeWhile (fun c => !isQuoteC c), t.takeWhile (fun x => x ≠ '<'), rest)
        | none => none
      | [] => none
    else none
  | none => none

/-- The lazy `(?:[^>]*?\s+)?href` portion: the nearest `href=` whose gap
from `<a` contains no `>` and ends in whitespace, backtracking to later
occurrences on tail failure. -/
def linkHrefScan : Str → Option (Str × Str × Str)
  | [] => none
  | c :: t =>
    if c = '>' then none
    else if isSpaceC c then
      match stripCi (S "href=") t with
      | some s1 =>
        match linkTail s1 with
        | some r => some r
        | none => linkHrefScan t
      | none => linkHrefScan t
    else linkHrefScan t

/-- Position matcher for
`<a\s+(?:[^>]*?\s+)?href=["\']([^"\']+)["\'][^>]*>([^<]*)</a>`
(IGNORECASE). -/
def linkAt (s : Str) : Option (Str × Str × Str) :=
  match stripCi (S "<a") s with
  | some s1 =>
    match s1.head? with
    | some c => if isSpaceC c then linkHrefScan s1 else none
    | none => none
  | none => none

def extract_links_go (fuel : Nat) (html : Str) : List Link :=
  match fuel, html with
  | 0, _ => []
  | _, [] => []
  | f + 1, c :: t =>
    match linkAt (c :: t) with
    | some r =>
      let href := pyStrip r.1
      let text := pyStrip r.2.1
      let rest := extract_links_go f r.2.2
      if href ≠ [] then
        { href := href, text := if text = [] then none else some text } :: rest
      else rest
    | none => extract_links_go f t

/-- `extract_links`: `finditer` resumes after each match; every fuel step
either advances one character or skips a whole match, so `length + 1`
fuel suffices. -/
def extract_links (html : Str) : List Link :=
  extract_links_go (html.length + 1) html

/-! ## Dialogue (generate_mock_dialogue, lines 182-218) -/

structure DialogueTurn where
  role : Str
  text : Str
deriving DecidableEq

/-- Python truthiness `title if title else default` for an optional
string. -/
def pyOrElse (t : Option Str) (dflt : Str) : Str :=
  match t with
  | some s => if s = [] then dflt else s
  | none => dflt

def crisisReply : Str :=
  S "我聽到你的困擾。如果你現在感到非常難受，請聯絡學校心理諮商服務或撥打各地心理健康支持專線。我們可以一起討論如何度過這段艱難時期。"

def normalReply : Str :=
  S "謝謝你的分享。我理解這對你來說可能很挑戰。能否告訴我更多細節，讓我更好地理解你的情況？"

def closingReply : Str :=
  S "我理解這些挑戰確實會帶來壓力。許多學生都有類似的經歷。你可以考慮和朋友、家人或專業輔導員談論這些感受。"

def generate_mock_dialogue (title : Option Str) (content : Str)
    (has_crisis : Bool) : List DialogueTurn :=
  let firstUser :=
    if has_crisis then
      { role := S "user", text := pyOrElse title (S "我最近遇到了很困擾的問題") }
    else
      { role := S "user", text := pyOrElse title (S "我最近感到很困擾") }
  let firstAssistant :=
    { role := S "assistant", text := if has_crisis then crisisReply else normalReply }
  let content_excerpt := if 150 < content.length then pyTake 150 content else content
  let secondUser :=
    { role := S "user", text := S "嗯，主要是因為" ++ content_excerpt ++ S "..." }
  let secondAssistant := { role := S "assistant", text := closingReply }
  [firstUser, firstAssistant, secondUser, secondAssistant]

/-! ## Record assembly (parse_html_file, lines 220-318) -/

structure OutputRecord where
  source_file : Str
  url : Option Str
  domain : Option Str
  board_or_category : Option Str
  title : Option Str
  author_display : Option Str
  timestamp_iso : Option Str
  language : Str
  content_text : Option Str
  links_extracted : List Link
  topic_primary : Str
  topic_secondary : List Str
  summary_150zh : Str
  moderation_flags : List Str
  dialogue_mock : List DialogueTurn
  notes : Str
deriving DecidableEq

/-- The redacted body text of a document (lines 239-244 and 278). -/
def redactedOf (html : Str) : Str := (obscure_personal_info (contentRaw html)).1

/-- The redaction log of a document. -/
def redactionLogOf (html : Str) : List Str :=
  (obscure_personal_info (contentRaw html)).2

/-- Summary construction, lines 290-293:
`content_text[:180].replace('\n', ' ').strip()` plus `'...'` when the
redacted text is longer than 180 characters. -/
def summaryOf (content_text : Str) : Str :=
  let base := pyStrip (pyReplace (pyTake 180 content_text) (S "\n") (S " "))
  if 180 < content_text.length then base ++ S "..." else base

/-- `parse_html_file` on a decoded document.  `html_path` is the path
handed in by `main`; decoding (lines 222-231) is outside the model, which
starts from the decoded character sequence. -/
def parse_html_file (html_path : Str) (html : Str) : OutputRecord :=
  let url := urlOf html
  let domain := extract_domain url
  let content_text := redactedOf html
  let obscured := redactionLogOf html
  let title := titleOf html
  let pair := classify_topic (pyOrElse title []) content_text
  let links := extract_links html
  let crisis_flags := detect_crisis_flags content_text
  let has_crisis := decide (S "crisis" ∈ crisis_flags)
  { source_file := pyBasename html_path
    url := url
    domain := domain
    board_or_category := board_or_category html
    title := title
    author_display := author_display html
    timestamp_iso := none
    language := S "zh-Hant"
    content_text := if content_text ≠ [] then some (pyTake 2000 content_text) else none
    links_extracted := links
    topic_primary := pair.1
    topic_secondary := pair.2
    summary_150zh := summaryOf content_text
    moderation_flags := crisis_flags
    dialogue_mock := generate_mock_dialogue title content_text has_crisis
    notes :=
      if obscured ≠ [] then S "個資遮蔽: " ++ pyJoin (S ", ") obscured
      else [] }

/-! ## Output filename (generate_json_filename, lines 320-329, and its use
in main, lines 357-364) -/

/-- `pathlib.Path(...).stem` for ordinary file names: the name without its
final `.suffix` (a dot at the start or the very end does not begin a
suffix). -/
def pyStem (name : Str) : Str :=
  let revName := name.reverse
  let ext := revName.takeWhile (fun c => c ≠ '.')
  if ext.length + 1 < name.length ∧ 0 < ext.length then
    (revName.drop (ext.length + 1)).reverse
  else name

def slugChar (c : Char) : Char := if isWordC c || c = '-' then c else '_'

/-- Collapse `_+` runs to a single underscore (`re.sub(r'_+', '_', ...)`). -/
def collapseUndersGo (fuel : Nat) (s : Str) : Str :=
  match fuel, s with
  | 0, _ => s
  | _, [] => []
  | f + 1, '_' :: t => '_' :: collapseUndersGo f (t.dropWhile (fun c => c = '_'))
  | f + 1, c :: t => c :: collapseUndersGo f t

def collapseUnders (s : Str) : Str := collapseUndersGo (s.length + 1) s

/-- Python `str.strip('_')`. -/
def stripUnders (s : Str) : Str :=
  ((s.dropWhile (fun c => c = '_')).reverse.dropWhile (fun c => c = '_')).reverse

/-- Python truthiness-guarded `domain and pat in domain`. -/
def domainHas (domain : Option Str) (pat : Str) : Bool :=
  match domain with
  | some d => decide (d ≠ []) && containsSub d pat
  | none => false

def generate_json_filename (source_file : Str) (domain : Option Str) : Str :=
  let base_name := pyStem source_file
  let domain_short :=
    if domainHas domain (S "ptt") then S "ptt"
    else if domainHas domain (S "dcard") then S "dcard"
    else S "unknown"
  let slug := stripUnders (collapseUnders ((pyLower base_name).map slugChar))
  domain_short ++ S "__" ++ slug ++ S "__.json"

/-- Filename derivation as performed per document in `main` (lines
359-360): `generate_json_filename(result['source_file'], result['domain'])`. -/
def derivedFilename (html_path : Str) (html : Str) : Str :=
  let result := parse_html_file html_path html
  generate_json_filename result.source_file result.domain

/-! ## Spec-side definitions used for refinement comparisons -/

/-- The summary as the spec words it (§4.7): first 180 characters of the
redacted text with newlines replaced by spaces, surrounding whitespace
trimmed, and a trailing ellipsis appended iff the redacted text exceeds
180 characters. -/
def specSummary150 (redacted : Str) : Str :=
  if 180 < redacted.length then
    pyStrip ((redacted.take 180).map (fun c => if c = '\n' then ' ' else c)) ++ S "..."
  else pyStrip ((redacted.take 180).map (fun c => if c = '\n' then ' ' else c))

/-- Plain "ends with" on character lists. -/
def strEndsWith (s suf : Str) : Bool := decide (pyTakeLast suf.length s = suf)

/-! ## General lemmas about the string model -/

theorem containsSub_iff (hay needle : Str) :
    containsSub hay needle = true ↔ needle <:+: hay := by
  induction hay with
  | nil =>
    rw [containsSub]
    split
    · next hp =>
      simp only [List.isPrefixOf_iff_prefix] at hp
      simpa using hp.isInfix
    · next hp =>
      simp only [List.isPrefixOf_iff_prefix] at hp
      simp only [Bool.false_eq_true, false_iff]
      intro h
      obtain ⟨u, v, huv⟩ := h
      rcases List.append_eq_nil.mp huv with ⟨h1, -⟩
      rcases List.append_eq_nil.mp h1 with ⟨-, h3⟩
      subst h3
      exact hp List.nil_prefix
  | cons c t ih =>
    rw [containsSub]
    split
    · next hp =>
      simp only [List.isPrefixOf_iff_prefix] at hp
      simpa using hp.isInfix
    · next hp =>
      simp only [List.isPrefixOf_iff_prefix] at hp
      rw [ih]
      constructor
      · intro h
        exact h.trans (List.suffix_cons c t).isInfix
      · intro h
        rcases List.infix_cons_iff.mp h with h1 | h2
        · exact absurd h1 hp
        · exact h2

theorem anyKwIn_iff (kws : List Str) (text : Str) :
    anyKwIn kws text = true ↔ ∃ kw ∈ kws, kw <:+: text := by
  unfold anyKwIn
  rw [List.any_eq_true]
  constructor
  · intro ⟨kw, hm, hc⟩
    exact ⟨kw, hm, (containsSub_iff text kw).mp hc⟩
  · intro ⟨kw, hm, hc⟩
    exact ⟨kw, hm, (containsSub_iff text kw).mpr hc⟩

theorem append_overlap {α : Type} (m rest a t : List α)
    (h : m ++ rest = a ++ t) (hle : m.length ≤ a.length) :
    ∃ w, a = m ++ w ∧ rest = w ++ t := by
  induction m generalizing a with
  | nil => exact ⟨a, rfl, by simpa using h⟩
  | cons x m' ih =>
    match a with
    | [] => simp at hle
    | y :: a' =>
      simp only [List.cons_append, List.cons.injEq] at h
      obtain ⟨hxy, h2⟩ := h
      subst hxy
      simp only [List.length_cons, Nat.add_le_add_iff_right] at hle
      obtain ⟨w, hw1, hw2⟩ := ih a' h2 hle
      exact ⟨w, by rw [List.cons_append, hw1], hw2⟩

theorem suffix_of_suffix_le {α : Type} (s1 s2 m : List α)
    (h1 : s1 <:+ m) (h2 : s2 <:+ m) (hle : s1.length ≤ s2.length) :
    s1 <:+ s2 := by
  obtain ⟨u1, hu1⟩ := h1
  obtain ⟨u2, hu2⟩ := h2
  have h : u2 ++ s2 = u1 ++ s1 := by rw [hu1, hu2]
  have hlen : u2.length ≤ u1.length := by
    have e1 := congrArg List.length hu1
    have e2 := congrArg List.length hu2
    simp only [List.length_append] at e1 e2
    omega
  obtain ⟨w, hw1, hw2⟩ := append_overlap u2 s2 u1 s1 h hlen
  exact ⟨w, hw2.symm⟩

/-! ## C1: the `<title>` scenario

The spec's scenario claims an empty-body document with only
`<title>小測試 _ Dcard</title>` yields `content_text = null` and
`summary_150zh = ""`.  In the code, `html.parser` fires `handle_data` for
the text inside `<title>` (the extractor does not treat `title` as a
suppressed region), so the body text is `"小測試 _ Dcard"`. -/

/-- C1, counterexample: on the scenario document the title is indeed
`"小測試"`, but `content_text` is not null and the summary is not empty,
contradicting the claimed record. -/
theorem c1_counterexample :
    (parse_html_file (S "test.html") (S "<title>小測試 _ Dcard</title><body></body>")).title
        = some (S "小測試") ∧
    (parse_html_file (S "test.html") (S "<title>小測試 _ Dcard</title><body></body>")).content_text
        ≠ none ∧
    (parse_html_file (S "test.html") (S "<title>小測試 _ Dcard</title><body></body>")).summary_150zh
        ≠ [] := by
  refine ⟨by decide, by decide, by decide⟩

/-- C1, amended: on the scenario document the assembled record has
`title = "小測試"`, `content_text = "小測試 _ Dcard"` (the title text is
collected as body data) and `summary_150zh = "小測試 _ Dcard"`. -/
theorem c1_amended :
    (parse_html_file (S "test.html") (S "<title>小測試 _ Dcard</title><body></body>")).title
        = some (S "小測試") ∧
    (parse_html_file (S "test.html") (S "<title>小測試 _ Dcard</title><body></body>")).content_text
        = some (S "小測試 _ Dcard") ∧
    (parse_html_file (S "test.html") (S "<title>小測試 _ Dcard</title><body></body>")).summary_150zh
        = S "小測試 _ Dcard" := by
  refine ⟨by decide, by decide, by decide⟩

/-! ## C10: output filenames collide -/

/-- C10: the derived output filename depends only on the basename stem and
the record's domain (`generate_json_filename` receives nothing else), and
it is not injective: two distinct documents with equal basenames whose
domains (`www.dcard.tw` and `dcard.tw`) both map to the `dcard` marker
derive the identical filename `dcard__post__.json`. -/
theorem c10_filename_collision :
    S "<meta property=\"og:url\" content=\"https://www.dcard.tw/f/a\">"
        ≠ S "<meta property=\"og:url\" content=\"https://dcard.tw/f/b\">" ∧
    (parse_html_file (S "post.html")
        (S "<meta property=\"og:url\" content=\"https://www.dcard.tw/f/a\">")).domain
        = some (S "www.dcard.tw") ∧
    (parse_html_file (S "post.html")
        (S "<meta property=\"og:url\" content=\"https://dcard.tw/f/b\">")).domain
        = some (S "dcard.tw") ∧
    derivedFilename (S "post.html")
        (S "<meta property=\"og:url\" content=\"https://www.dcard.tw/f/a\">")
      = derivedFilename (S "post.html")
        (S "<meta property=\"og:url\" content=\"https://dcard.tw/f/b\">") ∧
    derivedFilename (S "post.html")
        (S "<meta property=\"og:url\" content=\"https://www.dcard.tw/f/a\">")
      = S "dcard__post__.json" := by
  refine ⟨by decide, by decide, by decide, by decide, by decide⟩

/-! ## C9: dialogue synthesis -/

/-- C9: for every (title, redacted content, crisis flag) input the
dialogue has exactly 4 turns alternating user/assistant starting with
user; the first assistant turn is one of two fixed templates chosen
solely by the crisis flag, and the two templates differ.  The generator
is a pure function, so equal inputs give equal dialogues. -/
theorem c9_dialogue_spec (title : Option Str) (content : Str) (has_crisis : Bool) :
    (generate_mock_dialogue title content has_crisis).length = 4 ∧
    (generate_mock_dialogue title content has_crisis).map (fun t => t.role)
      = [S "user", S "assistant", S "user", S "assistant"] ∧
    (generate_mock_dialogue title content has_crisis)[1]?
      = some { role := S "assistant"
               text := if has_crisis then crisisReply else normalReply } ∧
    crisisReply ≠ normalReply := by
  cases has_crisis <;>
    exact ⟨rfl, rfl, rfl, by decide⟩

/-! ## C8: moderation flags -/

theorem mem_detect_crisis (content : Str) :
    S "crisis" ∈ detect_crisis_flags content ↔
      anyKwIn crisis_keywords (pyLower content) = true := by
  unfold detect_crisis_flags
  by_cases h1 : anyKwIn crisis_keywords (pyLower content) = true <;>
    by_cases h2 : anyKwIn harassment_keywords (pyLower content) = true <;>
      by_cases h3 : anyKwIn medical_keywords (pyLower content) = true <;>
        simp [h1, h2, h3] <;> decide

theorem mem_detect_harassment (content : Str) :
    S "harassment" ∈ detect_crisis_flags content ↔
      anyKwIn harassment_keywords (pyLower content) = true := by
  unfold detect_crisis_flags
  by_cases h1 : anyKwIn crisis_keywords (pyLower content) = true <;>
    by_cases h2 : anyKwIn harassment_keywords (pyLower content) = true <;>
      by_cases h3 : anyKwIn medical_keywords (pyLower content) = true <;>
        simp [h1, h2, h3] <;> decide

theorem mem_detect_medical (content : Str) :
    S "medical" ∈ detect_crisis_flags content ↔
      anyKwIn medical_keywords (pyLower content) = true := by
  unfold detect_crisis_flags
  by_cases h1 : anyKwIn crisis_keywords (pyLower content) = true <;>
    by_cases h2 : anyKwIn harassment_keywords (pyLower content) = true <;>
      by_cases h3 : anyKwIn medical_keywords (pyLower content) = true <;>
        simp [h1, h2, h3] <;> decide

theorem detect_sublist (content : Str) :
    List.Sublist (detect_crisis_flags content)
      [S "crisis", S "harassment", S "medical"] := by
  unfold detect_crisis_flags
  by_cases h1 : anyKwIn crisis_keywords (pyLower content) = true <;>
    by_cases h2 : anyKwIn harassment_keywords (pyLower content) = true <;>
      by_cases h3 : anyKwIn medical_keywords (pyLower content) = true <;>
        simp [h1, h2, h3]

/-- C8: the record's `moderation_flags` are computed from the redacted
body text; each flag is present iff one of its keywords is a substring of
the lowercased redacted text; the flags appear in the fixed order
crisis, harassment, medical; and with no keyword hit the list is empty. -/
theorem c8_moderation_flags_spec (html_path html : Str) :
    (parse_html_file html_path html).moderation_flags
        = detect_crisis_flags (redactedOf html) ∧
    (S "crisis" ∈ detect_crisis_flags (redactedOf html) ↔
      ∃ kw ∈ crisis_keywords, kw <:+: pyLower (redactedOf html)) ∧
    (S "harassment" ∈ detect_crisis_flags (redactedOf html) ↔
      ∃ kw ∈ harassment_keywords, kw <:+: pyLower (redactedOf html)) ∧
    (S "medical" ∈ detect_crisis_flags (redactedOf html) ↔
      ∃ kw ∈ medical_keywords, kw <:+: pyLower (redactedOf html)) ∧
    List.Sublist (detect_crisis_flags (redactedOf html))
      [S "crisis", S "harassment", S "medical"] ∧
    ((∀ kw ∈ crisis_keywords ++ harassment_keywords ++ medical_keywords,
        ¬kw <:+: pyLower (redactedOf html)) →
      detect_crisis_flags (redactedOf html) = []) := by
  refine ⟨rfl, ?_, ?_, ?_, detect_sublist _, ?_⟩
  · rw [mem_detect_crisis, anyKwIn_iff]
  · rw [mem_detect_harassment, anyKwIn_iff]
  · rw [mem_detect_medical, anyKwIn_iff]
  · intro hnone
    unfold detect_crisis_flags
    have h1 : anyKwIn crisis_keywords (pyLower (redactedOf html)) = false := by
      rw [Bool.eq_false_iff]
      intro hc
      obtain ⟨kw, hm, hi⟩ := (anyKwIn_iff _ _).mp hc
      exact hnone kw (by simp [hm]) hi
    have h2 : anyKwIn harassment_keywords (pyLower (redactedOf html)) = false := by
      rw [Bool.eq_false_iff]
      intro hc
      obtain ⟨kw, hm, hi⟩ := (anyKwIn_iff _ _).mp hc
      exact hnone kw (by simp [hm]) hi
    have h3 : anyKwIn medical_keywords (pyLower (redactedOf html)) = false := by
      rw [Bool.eq_false_iff]
      intro hc
      obtain ⟨kw, hm, hi⟩ := (anyKwIn_iff _ _).mp hc
      exact hnone kw (by simp [hm]) hi
    simp [h1, h2, h3]

/-! ## C6: extractor failure recovery -/

theorem pyMaxKey_of_le (l : List (Str × Nat)) (b : Str × Nat)
    (h : ∀ p ∈ l, p.2 ≤ b.2) : pyMaxKey b l = b := by
  induction l generalizing b with
  | nil => rfl
  | cons kv rest ih =>
    rw [pyMaxKey]
    have hkv : kv.2 ≤ b.2 := h kv (List.mem_cons_self _ _)
    have : ¬b.2 < kv.2 := by omega
    rw [if_neg this]
    exact ih b (fun p hp => h p (List.mem_cons_of_mem _ hp))

/-- C6, amended: when the Markup Text Extractor raises, the failure is
recovered locally: the body text degrades to the empty string, every later
stage runs on that empty text (`content_text = null`, empty summary,
empty flags, empty notes, dialogue built from the title and empty
content), and classification — which still sees the title — yields the
first category of the keyword table whenever the title contributes no
keyword score. -/
theorem c6_amended (html_path html : Str) (h : extractionFails html = true) :
    redactedOf html = [] ∧
    (parse_html_file html_path html).content_text = none ∧
    (parse_html_file html_path html).summary_150zh = [] ∧
    (parse_html_file html_path html).moderation_flags = [] ∧
    (parse_html_file html_path html).notes = [] ∧
    (parse_html_file html_path html).dialogue_mock
        = generate_mock_dialogue (titleOf html) [] false ∧
    ((∀ p ∈ scoresList (pyOrElse (titleOf html) []) [], p.2 = 0) →
      (parse_html_file html_path html).topic_primary = S "研究生壓力") := by
  have hraw : contentRaw html = [] := by
    unfold extractionFails at h
    unfold contentRaw
    split at h
    · next he => rw [he]
    · exact absurd h (by simp)
  have hred : redactedOf html = [] := by
    unfold redactedOf
    rw [hraw]
    decide
  have hlog : redactionLogOf html = [] := by
    unfold redactionLogOf
    rw [hraw]
    decide
  refine ⟨hred, ?_, ?_, ?_, ?_, ?_, ?_⟩
  · show (if redactedOf html ≠ [] then some (pyTake 2000 (redactedOf html)) else none) = none
    rw [hred]
    simp
  · show summaryOf (redactedOf html) = []
    rw [hred]
    decide
  · show detect_crisis_flags (redactedOf html) = []
    rw [hred]
    decide
  · show (if redactionLogOf html ≠ [] then
        S "個資遮蔽: " ++ pyJoin (S ", ") (redactionLogOf html) else []) = []
    rw [hlog]
    simp
  · show generate_mock_dialogue (titleOf html) (redactedOf html)
        (decide (S "crisis" ∈ detect_crisis_flags (redactedOf html)))
      = generate_mock_dialogue (titleOf html) [] false
    rw [hred]
    rfl
  · intro hzero
    show (classify_topic (pyOrElse (titleOf html) []) (redactedOf html)).1 = S "研究生壓力"
    rw [hred]
    unfold classify_topic
    rcases hsc : scoresList (pyOrElse (titleOf html) []) [] with - | ⟨kv, rest⟩
    · exact absurd hsc (by simp [scoresList, keywordTable])
    · have hkv : kv.1 = S "研究生壓力" := by
        have := congrArg (fun l => List.head? l) hsc
        simp only [scoresList, keywordTable, List.map, List.head?] at this
        injection this with h1
        rw [← h1]
      have hall : ∀ p ∈ rest, p.2 ≤ kv.2 := by
        intro p hp
        have hz1 := hzero p (by rw [hsc]; exact List.mem_cons_of_mem _ hp)
        rw [hz1]
        omega
      simp only [hsc]
      rw [pyMaxKey_of_le rest kv hall]
      exact hkv

/-- C6, counterexample: on a document whose extraction fails but whose
title text `"哭"` (from the raw-markup title regex, which is independent
of the extractor) hits a keyword of the second category, classification
does not yield the first category of the table. -/
theorem c6_counterexample :
    extractionFails (S "<title>哭 _ Dcard</title><![foo]>") = true ∧
    (parse_html_file (S "t.html") (S "<title>哭 _ Dcard</title><![foo]>")).content_text
        = none ∧
    (parse_html_file (S "t.html") (S "<title>哭 _ Dcard</title><![foo]>")).topic_primary
        = S "心理健康與情緒" ∧
    S "心理健康與情緒" ≠ S "研究生壓力" := by
  refine ⟨by decide, by decide, by decide, by decide⟩

/-- C6, witness for the amended theorem at the concrete document
`<![foo]>` (failing extraction, no title). -/
theorem c6_witness :
    extractionFails (S "<![foo]>") = true ∧
    (parse_html_file (S "t.html") (S "<![foo]>")).content_text = none ∧
    (parse_html_file (S "t.html") (S "<![foo]>")).topic_primary = S "研究生壓力" :=
  ⟨by decide,
   (c6_amended (S "t.html") (S "<![foo]>") (by decide)).2.1,
   (c6_amended (S "t.html") (S "<![foo]>") (by decide)).2.2.2.2.2.2 (by decide)⟩

/-! ## C7: classifier primary/secondary structure -/

theorem pyMaxKey_le (l : List (Str × Nat)) (b : Str × Nat) :
    ∀ p ∈ b :: l, p.2 ≤ (pyMaxKey b l).2 := by
  induction l generalizing b with
  | nil =>
    intro p hp
    rcases List.mem_cons.mp hp with h | h
    · subst h
      exact Nat.le_refl _
    · cases h
  | cons kv rest ih =>
    intro p hp
    rw [pyMaxKey]
    have hb : b.2 ≤ (if b.2 < kv.2 then kv else b).2 := by
      split <;> omega
    have hkv : kv.2 ≤ (if b.2 < kv.2 then kv else b).2 := by
      split
      · omega
      · next hn => omega
    rcases List.mem_cons.mp hp with h | h
    · subst h
      exact le_trans hb (ih _ _ (List.mem_cons_self _ _))
    · rcases List.mem_cons.mp h with h2 | h2
      · subst h2
        exact le_trans hkv (ih _ _ (List.mem_cons_self _ _))
      · exact ih _ _ (List.mem_cons_of_mem _ h2)

theorem pyMaxKey_first (l : List (Str × Nat)) (b : Str × Nat) :
    ∃ l1 l2, b :: l = l1 ++ pyMaxKey b l :: l2 ∧
      ∀ p ∈ l1, p.2 < (pyMaxKey b l).2 := by
  induction l generalizing b with
  | nil => exact ⟨[], [], rfl, by simp⟩
  | cons kv rest ih =>
    rw [pyMaxKey]
    by_cases h : b.2 < kv.2
    · rw [if_pos h]
      obtain ⟨l1, l2, heq, hlt⟩ := ih kv
      refine ⟨b :: l1, l2, by rw [List.cons_append, heq], ?_⟩
      intro p hp
      rcases List.mem_cons.mp hp with h2 | h2
      · subst h2
        have : kv.2 ≤ (pyMaxKey kv rest).2 :=
          pyMaxKey_le rest kv kv (List.mem_cons_self _ _)
        omega
      · exact hlt p h2
    · rw [if_neg h]
      obtain ⟨l1, l2, heq, hlt⟩ := ih b
      match l1, heq with
      | [], heq =>
        simp only [List.nil_append] at heq
        injection heq with h1 h2
        exact ⟨[], kv :: rest, by rw [List.nil_append, ← h1], by simp⟩
      | q :: l1', heq =>
        simp only [List.cons_append] at heq
        injection heq with h1 h2
        subst h1
        refine ⟨b :: kv :: l1', l2, ?_, ?_⟩
        · rw [List.cons_append, List.cons_append]
          conv_lhs => rw [h2]
        · intro p hp
          have hblt : b.2 < (pyMaxKey b rest).2 := hlt b (List.mem_cons_self _ _)
          rcases List.mem_cons.mp hp with h3 | h3
          · subst h3
            exact hblt
          · rcases List.mem_cons.mp h3 with h4 | h4
            · subst h4
              omega
            · exact hlt p (List.mem_cons_of_mem _ h4)

/-- C7: for every (title, text) pair the classifier's primary topic is the
first category attaining the maximum keyword score (scores taken in table
declaration order): the score list decomposes around the primary with all
earlier entries strictly smaller and all entries at most the primary's
score.  The secondary topics are the categories with positive score other
than the primary, in table declaration order, truncated to 3. -/
theorem c7_classify_topic_spec (title content : Str) :
    ∃ l1 l2 v,
      scoresList title content
          = l1 ++ ((classify_topic title content).1, v) :: l2 ∧
      (∀ p ∈ l1, p.2 < v) ∧
      (∀ p ∈ scoresList title content, p.2 ≤ v) ∧
      (classify_topic title content).2
        = (((scoresList title content).filter
            (fun p => 0 < p.2 ∧ p.1 ≠ (classify_topic title content).1)).map
              (fun p => p.1)).take 3 := by
  rcases hsc : scoresList title content with - | ⟨kv, rest⟩
  · exact absurd hsc (by simp [scoresList, keywordTable])
  · obtain ⟨l1, l2, heq, hlt⟩ := pyMaxKey_first rest kv
    have hle := pyMaxKey_le rest kv
    have hcl : classify_topic title content
        = ((pyMaxKey kv rest).1,
            (((kv :: rest).filter
              (fun p => 0 < p.2 ∧ p.1 ≠ (pyMaxKey kv rest).1)).map
                (fun p => p.1)).take 3) := by
      unfold classify_topic
      simp only [hsc]
    refine ⟨l1, l2, (pyMaxKey kv rest).2, ?_, ?_, ?_, ?_⟩
    · rw [hcl]
      simpa using heq
    · intro p hp
      exact hlt p hp
    · intro p hp
      exact hle p hp
    · rw [hcl]

/-! ## C2: the summary -/

theorem pyReplaceGo_single (a b : Char) :
    ∀ (fuel : Nat) (s : Str), s.length < fuel →
      pyReplaceGo fuel s [a] [b] = s.map (fun c => if c = a then b else c) := by
  intro fuel
  induction fuel with
  | zero =>
    intro s hs
    omega
  | succ f ih =>
    intro s hs
    match s with
    | [] => rfl
    | c :: t =>
      rw [pyReplaceGo]
      by_cases h : c = a
      · subst h
        have hp : List.isPrefixOf [c] (c :: t) = true := by
          simp [List.isPrefixOf]
        rw [if_pos hp]
        simp only [List.length_cons] at hs
        simp only [List.map_cons, if_pos rfl]
        have : (c :: t).drop (List.length [c]) = t := by simp
        rw [this, ih t (by omega)]
        rfl
      · have hp : List.isPrefixOf [a] (c :: t) = false := by
          simp [List.isPrefixOf]
          intro he
          exact absurd he.symm h
        rw [if_neg (by simp [hp])]
        simp only [List.length_cons] at hs
        rw [ih t (by omega)]
        simp [h]

theorem pyReplace_single (a b : Char) (s : Str) :
    pyReplace s [a] [b] = s.map (fun c => if c = a then b else c) := by
  unfold pyReplace
  rw [if_neg (by simp [List.isEmpty])]
  exact pyReplaceGo_single a b (s.length + 1) s (by omega)

theorem pyStrip_length_le (s : Str) : (pyStrip s).length ≤ s.length := by
  unfold pyStrip
  have h1 : (s.dropWhile isSpaceC).length ≤ s.length :=
    (List.dropWhile_suffix isSpaceC).length_le
  have h2 : ((s.dropWhile isSpaceC).reverse.dropWhile isSpaceC).length
      ≤ (s.dropWhile isSpaceC).reverse.length :=
    (List.dropWhile_suffix isSpaceC).length_le
  simp only [List.length_reverse] at h2 ⊢
  omega

/-- C2, amended: the summary equals the spec's description — first 180
characters of the redacted text, newlines to spaces, trimmed, ellipsis
appended iff the redacted text exceeds 180 characters — but its length is
only bounded by 183, not 180, because the three ellipsis dots are appended
after the 180-character slice. -/
theorem c2_amended (html_path html : Str) :
    (parse_html_file html_path html).summary_150zh
        = specSummary150 (redactedOf html) ∧
    (parse_html_file html_path html).summary_150zh.length ≤ 183 := by
  have heq : (parse_html_file html_path html).summary_150zh
      = specSummary150 (redactedOf html) := by
    show summaryOf (redactedOf html) = specSummary150 (redactedOf html)
    unfold summaryOf specSummary150
    rw [show S "\n" = ['\n'] from rfl, show S " " = [' '] from rfl]
    rw [pyReplace_single]
    rfl
  refine ⟨heq, ?_⟩
  rw [heq]
  unfold specSummary150
  have hbase : (pyStrip (((redactedOf html).take 180).map
      (fun c => if c = '\n' then ' ' else c))).length ≤ 180 := by
    have h1 := pyStrip_length_le (((redactedOf html).take 180).map
      (fun c => if c = '\n' then ' ' else c))
    have h2 : ((((redactedOf html).take 180)).map
        (fun c => if c = '\n' then ' ' else c)).length ≤ 180 := by
      rw [List.length_map]
      have := List.length_take 180 (redactedOf html)
      omega
    omega
  split
  · simp only [List.length_append]
    have : (S "...").length = 3 := by decide
    omega
  · omega

/-- C2, counterexample: a document whose body is 181 letters yields a
summary of length 183, so the claimed 180-character bound on
`summary_150zh` fails. -/
theorem c2_counterexample :
    (parse_html_file (S "a.html") (List.replicate 181 'a')).summary_150zh.length = 183 ∧
    180 < (parse_html_file (S "a.html") (List.replicate 181 'a')).summary_150zh.length := by
  refine ⟨by decide, by decide⟩

/-! ## C5: title suffix stripping -/

theorem reSearch_some (m : Str → Option Str) (s r : Str)
    (h : reSearch m s = some r) : ∃ s2, m s2 = some r := by
  induction s with
  | nil => exact ⟨[], h⟩
  | cons c t ih =>
    rw [reSearch] at h
    split at h
    · next hm =>
      injection h with h
      subst h
      exact ⟨c :: t, hm⟩
    · exact ih h

theorem titleCapAt_ne (s t : Str) (h : titleCapAt s = some t) : t ≠ [] := by
  unfold titleCapAt at h
  split at h
  · exact absurd h (by simp)
  · split at h
    · next hne =>
      split at h
      · injection h with h
        subst h
        exact hne
      · exact absurd h (by simp)
    · exact absurd h (by simp)

/-- C5, amended: the title suffixes are stripped only when `' _ Dcard'`
occurs in the title text; in that case every occurrence of `' _ Dcard'`
and of `' - 看板'` is removed and the result trimmed, and otherwise —
including a title that merely ends with `' - 看板'` — the text is kept
unchanged. -/
theorem c5_amended (html_path html t : Str)
    (h : reSearch titleCapAt html = some t) :
    (containsSub t (S " _ Dcard") = true →
      (parse_html_file html_path html).title
        = some (pyStrip (pyReplace (pyReplace t (S " _ Dcard") []) (S " - 看板") []))) ∧
    (containsSub t (S " _ Dcard") = false →
      (parse_html_file html_path html).title = some t) := by
  have htne : t ≠ [] := by
    obtain ⟨s2, hs2⟩ := reSearch_some titleCapAt html t h
    exact titleCapAt_ne s2 t hs2
  have hshow : (parse_html_file html_path html).title = titleOf html := rfl
  constructor
  · intro hc
    rw [hshow]
    unfold titleOf
    rw [h]
    show (if t ≠ [] ∧ containsSub t (S " _ Dcard") = true then
        some (pyStrip (pyReplace (pyReplace t (S " _ Dcard") []) (S " - 看板") []))
      else some t) = _
    rw [if_pos ⟨htne, hc⟩]
  · intro hc
    rw [hshow]
    unfold titleOf
    rw [h]
    show (if t ≠ [] ∧ containsSub t (S " _ Dcard") = true then
        some (pyStrip (pyReplace (pyReplace t (S " _ Dcard") []) (S " - 看板") []))
      else some t) = _
    rw [if_neg (by simp [hc])]

/-- C5, counterexample: a title text that ends with `' - 看板'` but does
not contain `' _ Dcard'` is left completely unstripped, contradicting the
claim that each suffix is stripped whenever present. -/
theorem c5_counterexample :
    reSearch titleCapAt (S "<title>測試 - 看板</title>") = some (S "測試 - 看板") ∧
    strEndsWith (S "測試 - 看板") (S " - 看板") = true ∧
    (parse_html_file (S "t.html") (S "<title>測試 - 看板</title>")).title
        = some (S "測試 - 看板") ∧
    S "測試 - 看板" ≠ S "測試" := by
  refine ⟨by decide, by decide, by decide, by decide⟩

/-- C5, witness for the amended theorem at a concrete document whose
title ends with `' _ Dcard'`. -/
theorem c5_witness :
    reSearch titleCapAt (S "<title>我啊 _ Dcard</title>") = some (S "我啊 _ Dcard") ∧
    (parse_html_file (S "t.html") (S "<title>我啊 _ Dcard</title>")).title
        = some (pyStrip (pyReplace (pyReplace (S "我啊 _ Dcard") (S " _ Dcard") [])
            (S " - 看板") [])) :=
  ⟨by decide,
   (c5_amended (S "t.html") (S "<title>我啊 _ Dcard</title>") (S "我啊 _ Dcard")
      (by decide)).1 (by decide)⟩

/-! ## C3 and C4 machinery: structure of the redaction passes -/

theorem all_takeWhile (p : Char → Bool) (l : Str) : (l.takeWhile p).all p = true := by
  induction l with
  | nil => rfl
  | cons c t ih =>
    rw [List.takeWhile]
    cases hp : p c
    · rfl
    · simpa [hp] using ih

theorem takeWhile_all_append (p : Char → Bool) (A w : Str) (h : A.all p = true) :
    (A ++ w).takeWhile p = A ++ w.takeWhile p := by
  induction A with
  | nil => rfl
  | cons c t ih =>
    simp only [List.all_cons, Bool.and_eq_true] at h
    rw [List.cons_append, List.takeWhile_cons, if_pos h.1, ih h.2, List.cons_append]

theorem take_prefix_eq (L s : Str) (h : L <+: s) : s.take L.length = L :=
  (List.prefix_iff_eq_take.mp h).symm

theorem takeWhile_split (p : Char → Bool) (s : Str) :
    s = s.takeWhile p ++ s.drop (s.takeWhile p).length := by
  conv_lhs => rw [← List.take_append_drop (s.takeWhile p).length s]
  rw [take_prefix_eq _ _ (List.takeWhile_prefix p)]

theorem emLen_eq (em : EMatch) :
    emLen em = em.loc.length + em.dm.length + em.tld.length + 2 := by
  simp only [emLen, ematchStr, List.length_append, List.length_cons]
  omega

theorem emailAt_sound (s : Str) (em : EMatch) (h : emailAt s = some em) :
    (∃ rest, s = ematchStr em ++ rest) ∧
    em.loc ≠ [] ∧ em.loc.all classE = true ∧
    em.dm ≠ [] ∧ em.dm.all classE = true ∧
    em.tld ≠ [] ∧ em.tld.all isWordC = true := by
  unfold emailAt at h
  split at h
  · exact absurd h (by simp)
  · next hL =>
    split at h
    · next s2 hdrop =>
      split at h
      · next j hj =>
        injection h with h
        subst h
        have hokmem := List.find?_some hj
        have hjmem := List.mem_of_find?_eq_some hj
        rw [List.mem_reverse, List.mem_range] at hjmem
        simp only [emailSplitOK, Bool.and_eq_true, decide_eq_true_eq] at hokmem
        obtain ⟨⟨hj1, hjdot⟩, hjword⟩ := hokmem
        have hjw : ∃ cw, (s2.takeWhile classE)[j + 1]? = some cw ∧ isWordC cw = true := by
          rcases hh : (s2.takeWhile classE)[j + 1]? with - | cw
          · rw [hh] at hjword
            exact absurd hjword (by simp)
          · rw [hh] at hjword
            exact ⟨cw, rfl, hjword⟩
        obtain ⟨cw, hcw, hcww⟩ := hjw
        have hj1lt : j + 1 < (s2.takeWhile classE).length :=
          (List.getElem?_eq_some.mp hcw).1
        have hdropc : (s2.takeWhile classE).drop (j + 1)
            = cw :: (s2.takeWhile classE).drop (j + 2) := by
          rw [List.drop_eq_getElem_cons hj1lt]
          have := (List.getElem?_eq_some.mp hcw).2
          rw [this]
        constructor
        · -- s decomposes as the match followed by a remainder
          have hs1 : s = s.takeWhile classE ++ ('@' :: s2) := by
            conv_lhs => rw [takeWhile_split classE s]
            rw [hdrop]
          have hR1 : s2.takeWhile classE
              = (s2.takeWhile classE).take j ++ '.'
                :: (((s2.takeWhile classE).drop (j + 1)).takeWhile isWordC
                  ++ ((s2.takeWhile classE).drop (j + 1)).dropWhile isWordC) := by
            conv_lhs => rw [← List.take_append_drop j (s2.takeWhile classE)]
            rw [List.drop_eq_getElem_cons (show j < (s2.takeWhile classE).length by omega)]
            obtain ⟨hjlt, hdot⟩ := List.getElem?_eq_some.mp hjdot
            rw [hdot, List.takeWhile_append_dropWhile isWordC]
          have hs2 : s2 = s2.takeWhile classE
              ++ s2.drop (s2.takeWhile classE).length := takeWhile_split classE s2
          set L := s.takeWhile classE with hLdef
          set R := s2.takeWhile classE with hRdef
          set TW := (R.drop (j + 1)).takeWhile isWordC with hTWdef
          set DW := (R.drop (j + 1)).dropWhile isWordC with hDWdef
          set B := s2.drop R.length with hBdef
          refine ⟨DW ++ B, ?_⟩
          rw [hs1, hs2]
          conv_lhs => rw [hR1]
          simp only [ematchStr, List.append_assoc, List.cons_append]
        refine ⟨hL, all_takeWhile _ _, ?_, ?_, ?_, ?_⟩
        · intro hnil
          have := congrArg List.length hnil
          simp only [List.length_take, List.length_nil] at this
          omega
        · rw [List.all_eq_true]
          intro x hx
          have hmem : x ∈ s2.takeWhile classE := List.mem_of_mem_take hx
          have hall := all_takeWhile classE s2
          rw [List.all_eq_true] at hall
          exact hall x hmem
        · rw [hdropc]
          simp [List.takeWhile_cons, hcww]
        · exact all_takeWhile _ _
      · exact absurd h (by simp)
    · exact absurd h (by simp)

theorem emLen_ge5 (s : Str) (em : EMatch) (h : emailAt s = some em) :
    5 ≤ emLen em := by
  obtain ⟨-, hl, -, hd, -, ht, -⟩ := emailAt_sound s em h
  rw [emLen_eq]
  have h1 : 1 ≤ em.loc.length := List.length_pos.mpr hl
  have h2 : 1 ≤ em.dm.length := List.length_pos.mpr hd
  have h3 : 1 ≤ em.tld.length := List.length_pos.mpr ht
  omega

theorem ematchStr_chars (s : Str) (em : EMatch) (h : emailAt s = some em) :
    ∀ ch ∈ ematchStr em, classE ch = true ∨ ch = '@' := by
  obtain ⟨-, -, hl, -, hd, -, ht⟩ := emailAt_sound s em h
  intro ch hch
  rw [List.all_eq_true] at hl hd ht
  simp only [ematchStr, List.mem_append, List.mem_cons] at hch
  rcases hch with (h1 | h1 | h1) | h1 | h1
  · exact Or.inl (hl ch h1)
  · exact Or.inr h1
  · exact Or.inl (hd ch h1)
  · exact Or.inl (by rw [h1]; decide)
  · left
    have := ht ch h1
    simp only [classE, this, Bool.true_or]

theorem emLen_length (em : EMatch) : (ematchStr em).length = emLen em := rfl

theorem emailAt_no_star (s : Str) (em : EMatch) (h : emailAt s = some em)
    (j : Nat) (hj : j < emLen em) : s[j]? ≠ some '*' := by
  obtain ⟨⟨rest, hrest⟩, -⟩ := emailAt_sound s em h
  intro hstar
  have hjm : j < (ematchStr em).length := by rw [emLen_length]; exact hj
  rw [hrest, List.getElem?_append_left hjm] at hstar
  obtain ⟨hlt, hEq⟩ := List.getElem?_eq_some.mp hstar
  have hmem : '*' ∈ ematchStr em := by
    rw [← hEq]
    exact List.getElem_mem _
  rcases ematchStr_chars s em h '*' hmem with hc | hc
  · exact absurd hc (by decide)
  · exact absurd hc (by decide)

theorem emailAt_none_of_star (s : Str) (j : Nat) (hj : j ≤ 4)
    (hstar : s[j]? = some '*') : emailAt s = none := by
  cases h : emailAt s with
  | none => rfl
  | some em =>
    have h5 := emLen_ge5 s em h
    exact absurd hstar (emailAt_no_star s em h j (by omega))

theorem subEmailGo_step_none (f : Nat) (c : Char) (t : Str)
    (h : emailAt (c :: t) = none) :
    subEmailGo (f + 1) (c :: t) = c :: subEmailGo f t := by
  show (match emailAt (c :: t) with
    | some em => emailRepl em ++ subEmailGo f ((c :: t).drop (emLen em))
    | none => c :: subEmailGo f t) = c :: subEmailGo f t
  rw [h]

theorem subEmailGo_step_some (f : Nat) (c : Char) (t : Str) (em : EMatch)
    (h : emailAt (c :: t) = some em) :
    subEmailGo (f + 1) (c :: t)
      = emailRepl em ++ subEmailGo f ((c :: t).drop (emLen em)) := by
  show (match emailAt (c :: t) with
    | some em => emailRepl em ++ subEmailGo f ((c :: t).drop (emLen em))
    | none => c :: subEmailGo f t) = _
  rw [h]

theorem subEmailGo_head (fuel : Nat) (c : Char) (t : Str) :
    ∃ u, subEmailGo fuel (c :: t) = c :: u := by
  match fuel with
  | 0 => exact ⟨t, rfl⟩
  | f + 1 =>
    cases h : emailAt (c :: t) with
    | none => exact ⟨subEmailGo f t, subEmailGo_step_none f c t h⟩
    | some em =>
      obtain ⟨⟨rest, hrest⟩, -⟩ := emailAt_sound _ _ h
      have h5 := emLen_ge5 _ _ h
      match hm : ematchStr em with
      | [] =>
        have := congrArg List.length hm
        rw [emLen_length] at this
        simp at this
        omega
      | c2 :: m2 =>
        have hc2 : c2 = c := by
          rw [hm] at hrest
          injection hrest with h1 h2
          exact h1.symm
        subst hc2
        refine ⟨m2.take 1 ++ (S "***@" ++ em.dm ++ '.' :: em.tld)
            ++ subEmailGo f ((c2 :: t).drop (emLen em)), ?_⟩
        rw [subEmailGo_step_some f c2 t em h]
        unfold emailRepl pyTake
        rw [hm]
        simp [List.take_succ_cons]

theorem subEmailGo_head2 (fuel : Nat) (c d : Char) (t : Str) :
    ∃ u, subEmailGo fuel (c :: d :: t) = c :: d :: u := by
  match fuel with
  | 0 => exact ⟨t, rfl⟩
  | f + 1 =>
    cases h : emailAt (c :: d :: t) with
    | none =>
      obtain ⟨u, hu⟩ := subEmailGo_head f d t
      exact ⟨u, by rw [subEmailGo_step_none f c _ h, hu]⟩
    | some em =>
      obtain ⟨⟨rest, hrest⟩, -⟩ := emailAt_sound _ _ h
      have h5 := emLen_ge5 _ _ h
      match hm : ematchStr em with
      | [] =>
        have := congrArg List.length hm
        rw [emLen_length] at this
        simp at this
        omega
      | [c2] =>
        have := congrArg List.length hm
        rw [emLen_length] at this
        simp at this
        omega
      | c2 :: d2 :: m2 =>
        have hcd : c2 = c ∧ d2 = d := by
          rw [hm] at hrest
          injection hrest with h1 h2
          injection h2 with h2 h3
          exact ⟨h1.symm, h2.symm⟩
        obtain ⟨hc2, hd2⟩ := hcd
        subst hc2
        subst hd2
        refine ⟨(S "***@" ++ em.dm ++ '.' :: em.tld)
            ++ subEmailGo f ((c2 :: d2 :: t).drop (emLen em)), ?_⟩
        rw [subEmailGo_step_some f c2 _ em h]
        unfold emailRepl pyTake
        rw [hm]
        simp [List.take_succ_cons]

theorem subEmailGo_run3star (g : Nat) (z0 z1 : Char) (b : Str) :
    ∃ u, subEmailGo (g + 3) ('*' :: '*' :: '*' :: z0 :: z1 :: b)
      = '*' :: '*' :: '*' :: z0 :: z1 :: u := by
  have h1 : emailAt ('*' :: '*' :: '*' :: z0 :: z1 :: b) = none :=
    emailAt_none_of_star _ 0 (by omega) rfl
  have h2 : emailAt ('*' :: '*' :: z0 :: z1 :: b) = none :=
    emailAt_none_of_star _ 0 (by omega) rfl
  have h3 : emailAt ('*' :: z0 :: z1 :: b) = none :=
    emailAt_none_of_star _ 0 (by omega) rfl
  obtain ⟨u, hu⟩ := subEmailGo_head2 g z0 z1 b
  exact ⟨u, by
    rw [subEmailGo_step_none _ _ _ h1, subEmailGo_step_none _ _ _ h2,
      subEmailGo_step_none _ _ _ h3, hu]⟩

theorem subEmailGo_run4 (g : Nat) (x1 z0 z1 : Char) (b : Str) :
    ∃ u, subEmailGo (g + 4) (x1 :: '*' :: '*' :: '*' :: z0 :: z1 :: b)
      = x1 :: '*' :: '*' :: '*' :: z0 :: z1 :: u := by
  have h0 : emailAt (x1 :: '*' :: '*' :: '*' :: z0 :: z1 :: b) = none :=
    emailAt_none_of_star _ 1 (by omega) rfl
  obtain ⟨u, hu⟩ := subEmailGo_run3star g z0 z1 b
  exact ⟨u, by rw [subEmailGo_step_none _ _ _ h0, hu]⟩

theorem subEmailGo_run5 (g : Nat) (x0 x1 z0 z1 : Char) (b : Str) :
    ∃ u, subEmailGo (g + 5) (x0 :: x1 :: '*' :: '*' :: '*' :: z0 :: z1 :: b)
      = x0 :: x1 :: '*' :: '*' :: '*' :: z0 :: z1 :: u := by
  have h0 : emailAt (x0 :: x1 :: '*' :: '*' :: '*' :: z0 :: z1 :: b) = none :=
    emailAt_none_of_star _ 2 (by omega) rfl
  obtain ⟨u, hu⟩ := subEmailGo_run4 g x1 z0 z1 b
  exact ⟨u, by rw [subEmailGo_step_none _ _ _ h0, hu]⟩

theorem subEmailGo_mask (x0 x1 z0 z1 : Char) :
    ∀ (fuel : Nat) (a b : Str),
      (a ++ x0 :: x1 :: '*' :: '*' :: '*' :: z0 :: z1 :: b).length < fuel →
      ∃ a2 b2, subEmailGo fuel (a ++ x0 :: x1 :: '*' :: '*' :: '*' :: z0 :: z1 :: b)
        = a2 ++ x0 :: x1 :: '*' :: '*' :: '*' :: z0 :: z1 :: b2 := by
  intro fuel
  induction fuel with
  | zero =>
    intro a b hlen
    omega
  | succ f ih =>
    intro a b hlen
    match a with
    | [] =>
      simp only [List.length_append, List.length_cons, List.length_nil,
        List.nil_append] at hlen ⊢
      obtain ⟨g, hg⟩ : ∃ g, f + 1 = g + 5 := ⟨f - 4, by omega⟩
      rw [hg]
      obtain ⟨u, hu⟩ := subEmailGo_run5 g x0 x1 z0 z1 b
      exact ⟨[], u, by rw [hu]; rfl⟩
    | c :: a' =>
      simp only [List.cons_append] at hlen ⊢
      cases h : emailAt (c :: (a' ++ x0 :: x1 :: '*' :: '*' :: '*' :: z0 :: z1 :: b)) with
      | none =>
        have hlen2 : (a' ++ x0 :: x1 :: '*' :: '*' :: '*' :: z0 :: z1 :: b).length < f := by
          simp only [List.length_cons] at hlen
          omega
        obtain ⟨a2, b2, heq⟩ := ih a' b hlen2
        exact ⟨c :: a2, b2, by rw [subEmailGo_step_none _ _ _ h, heq]; rfl⟩
      | some em =>
        obtain ⟨⟨rest, hrest⟩, -, -, hdne, -, htne, -⟩ := emailAt_sound _ _ h
        have h5 := emLen_ge5 _ _ h
        have hklen : emLen em = (ematchStr em).length := (emLen_length em).symm
        have hstep := subEmailGo_step_some f c
          (a' ++ x0 :: x1 :: '*' :: '*' :: '*' :: z0 :: z1 :: b) em h
        have hdrop : (c :: (a' ++ x0 :: x1 :: '*' :: '*' :: '*' :: z0 :: z1 :: b)).drop
            (emLen em) = rest := by
          rw [hrest, hklen]
          exact List.drop_left _ _
        by_cases hk1 : emLen em ≤ (c :: a').length
        · -- the match lies inside `a`
          have hover : ematchStr em ++ rest
              = (c :: a') ++ (x0 :: x1 :: '*' :: '*' :: '*' :: z0 :: z1 :: b) := by
            rw [← hrest]
            rfl
          obtain ⟨w, hw1, hw2⟩ := append_overlap _ _ _ _ hover (by omega)
          have hlenr : (w ++ x0 :: x1 :: '*' :: '*' :: '*' :: z0 :: z1 :: b).length < f := by
            have e1 := congrArg List.length hrest
            have e2 := congrArg List.length hw2
            simp only [List.length_append, List.length_cons] at e1 e2 hlen ⊢
            omega
          obtain ⟨a2, b2, heq⟩ := ih w b (by simpa using hlenr)
          refine ⟨emailRepl em ++ a2, b2, ?_⟩
          rw [hstep, hdrop, hw2, heq]
          simp [List.append_assoc]
        · by_cases hk2 : emLen em = (c :: a').length + 1
          · -- the match ends exactly at x0
            have hm : ematchStr em = (c :: a') ++ [x0] := by
              have ht1 : (c :: (a' ++ x0 :: x1 :: '*' :: '*' :: '*' :: z0 :: z1 :: b)).take
                  (emLen em) = ematchStr em := by
                rw [hrest, hklen]
                exact List.take_left _ _
              rw [← ht1, hk2]
              show ((c :: a') ++ x0 :: x1 :: '*' :: '*' :: '*' :: z0 :: z1 :: b).take
                  ((c :: a').length + 1) = _
              rw [List.take_append_eq_append_take]
              have h1 : (c :: a').length + 1 - (c :: a').length = 1 := by omega
              rw [List.take_of_length_le (by omega), h1]
              rfl
            have hrest2 : rest = x1 :: '*' :: '*' :: '*' :: z0 :: z1 :: b := by
              rw [← hdrop, hk2]
              show ((c :: a') ++ x0 :: x1 :: '*' :: '*' :: '*' :: z0 :: z1 :: b).drop
                  ((c :: a').length + 1) = _
              rw [List.drop_append_eq_append_drop]
              have h1 : (c :: a').length + 1 - (c :: a').length = 1 := by omega
              rw [List.drop_eq_nil_of_le (by omega), h1]
              rfl
            -- the replacement ends with the matched domain, whose last character is x0
            have hDsuf : (em.dm ++ '.' :: em.tld) <:+ ematchStr em :=
              ⟨em.loc ++ ['@'], by simp [ematchStr]⟩
            have hx0suf : [x0] <:+ ematchStr em := by
              rw [hm]
              exact ⟨c :: a', rfl⟩
            have hDlen : 1 ≤ (em.dm ++ '.' :: em.tld).length := by
              simp only [List.length_append, List.length_cons]
              omega
            obtain ⟨D1, hD1⟩ := suffix_of_suffix_le [x0] (em.dm ++ '.' :: em.tld)
              (ematchStr em) hx0suf hDsuf
              (by simp only [List.length_append, List.length_cons, List.length_nil]; omega)
            obtain ⟨g, hgf⟩ : ∃ g, f = g + 4 := ⟨f - 4, by
              simp only [List.length_cons, List.length_append] at hlen
              omega⟩
            obtain ⟨u, hu⟩ := subEmailGo_run4 g x1 z0 z1 b
            refine ⟨pyTake 2 (ematchStr em) ++ S "***@" ++ D1, u, ?_⟩
            rw [hstep, hdrop, hrest2, hgf, hu]
            have hrepl : emailRepl em
                = (pyTake 2 (ematchStr em) ++ S "***@" ++ D1) ++ [x0] := by
              unfold emailRepl
              simp only [List.append_assoc]
              rw [← hD1]
            rw [hrepl]
            simp [List.append_assoc]
          · by_cases hk3 : emLen em = (c :: a').length + 2
            · -- the match ends exactly at x1
              have hm : ematchStr em = (c :: a') ++ [x0, x1] := by
                have ht1 : (c :: (a' ++ x0 :: x1 :: '*' :: '*' :: '*' :: z0 :: z1 :: b)).take
                    (emLen em) = ematchStr em := by
                  rw [hrest, hklen]
                  exact List.take_left _ _
                rw [← ht1, hk3]
                show ((c :: a') ++ x0 :: x1 :: '*' :: '*' :: '*' :: z0 :: z1 :: b).take
                    ((c :: a').length + 2) = _
                rw [List.take_append_eq_append_take]
                have h1 : (c :: a').length + 2 - (c :: a').length = 2 := by omega
                rw [List.take_of_length_le (by omega), h1]
                rfl
              have hrest2 : rest = '*' :: '*' :: '*' :: z0 :: z1 :: b := by
                rw [← hdrop, hk3]
                show ((c :: a') ++ x0 :: x1 :: '*' :: '*' :: '*' :: z0 :: z1 :: b).drop
                    ((c :: a').length + 2) = _
                rw [List.drop_append_eq_append_drop]
                have h1 : (c :: a').length + 2 - (c :: a').length = 2 := by omega
                rw [List.drop_eq_nil_of_le (by omega), h1]
                rfl
              have hDsuf : (em.dm ++ '.' :: em.tld) <:+ ematchStr em :=
                ⟨em.loc ++ ['@'], by simp [ematchStr]⟩
              have hx01suf : [x0, x1] <:+ ematchStr em := by
                rw [hm]
                exact ⟨c :: a', rfl⟩
              have hDlen : 2 ≤ (em.dm ++ '.' :: em.tld).length := by
                have := List.length_pos.mpr htne
                simp only [List.length_append, List.length_cons]
                omega
              obtain ⟨D1, hD1⟩ := suffix_of_suffix_le [x0, x1] (em.dm ++ '.' :: em.tld)
                (ematchStr em) hx01suf hDsuf
                (by
                  have := List.length_pos.mpr hdne
                  simp only [List.length_append, List.length_cons, List.length_nil]
                  omega)
              obtain ⟨g, hgf⟩ : ∃ g, f = g + 3 := ⟨f - 3, by
                simp only [List.length_cons, List.length_append] at hlen
                omega⟩
              obtain ⟨u, hu⟩ := subEmailGo_run3star g z0 z1 b
              refine ⟨pyTake 2 (ematchStr em) ++ S "***@" ++ D1, u, ?_⟩
              rw [hstep, hdrop, hrest2, hgf, hu]
              have hrepl : emailRepl em
                  = (pyTake 2 (ematchStr em) ++ S "***@" ++ D1) ++ [x0, x1] := by
                unfold emailRepl
                simp only [List.append_assoc]
                rw [← hD1]
              rw [hrepl]
              simp [List.append_assoc]
            · -- the match would have to contain a star: impossible
              exfalso
              have hstar : (c :: (a' ++ x0 :: x1 :: '*' :: '*' :: '*' :: z0 :: z1 :: b))[(c :: a').length + 2]?
                  = some '*' := by
                show ((c :: a') ++ x0 :: x1 :: '*' :: '*' :: '*' :: z0 :: z1 :: b)[(c :: a').length + 2]?
                  = some '*'
                rw [List.getElem?_append_right (by omega)]
                simp
              exact emailAt_no_star _ em h ((c :: a').length + 2) (by omega) hstar

/-! ## The ID pass on a standalone digit run

`\b\d{8,10}\b` fires exactly at a maximal digit run of length 8-10 with
non-word flanks; the lemmas below track the scanner of `subIDGo` /
`searchIDGo` across an arbitrary prefix `u` up to such a run. -/

theorem digit_isWord (c : Char) (h : isDigitC c = true) : isWordC c = true := by
  unfold isDigitC at h
  simp [isWordC, Char.isAlphanum, h]

theorem takeWhile_nil_of_head (p : Char → Bool) (c : Char) (v : Str)
    (h : p c = false) : (c :: v).takeWhile p = [] := by
  rw [List.takeWhile_cons, if_neg (by simp [h])]

theorem takeWhile_digits_flank (R v : Str) (hR : R.all isDigitC = true)
    (hv : headNonWord v = true) : (R ++ v).takeWhile isDigitC = R := by
  rw [takeWhile_all_append isDigitC R v hR]
  cases v with
  | nil => simp
  | cons c v' =>
    have hc : isWordC c = false := by simpa [headNonWord] using hv
    have hd : isDigitC c = false := by
      cases hdc : isDigitC c
      · rfl
      · rw [digit_isWord c hdc] at hc
        exact hc
    rw [takeWhile_nil_of_head _ _ _ hd, List.append_nil]

theorem idRunOK_boundary (prev : Option Char) (R v : Str)
    (h8 : 8 ≤ R.length) (h10 : R.length ≤ 10) (hR : R.all isDigitC = true)
    (hp : prevNonWord prev = true) (hv : headNonWord v = true) :
    idRunOK prev (R ++ v) = true := by
  have hrun := takeWhile_digits_flank R v hR hv
  simp only [idRunOK]
  rw [hrun, List.drop_left]
  cases v with
  | nil => simp [hp, h8, h10]
  | cons c v' =>
    have hc : isWordC c = false := by simpa [headNonWord] using hv
    simp [hp, h8, h10, hc]

theorem takeWhile_lt_of_last (p : Char → Bool) (u w : Str) (d : Char)
    (hlast : u.getLast? = some d) (hd : p d = false) :
    ((u ++ w).takeWhile p).length < u.length := by
  by_contra hge
  push_neg at hge
  have hpre : (u ++ w).takeWhile p <+: u ++ w := List.takeWhile_prefix p
  have hu : u <+: u ++ w := List.prefix_append u w
  have hupre : u <+: (u ++ w).takeWhile p :=
    List.prefix_of_prefix_length_le hu hpre hge
  have hall : ((u ++ w).takeWhile p).all p = true := all_takeWhile p (u ++ w)
  have hmem : d ∈ (u ++ w).takeWhile p :=
    hupre.subset (List.mem_of_mem_getLast? hlast)
  rw [List.all_eq_true] at hall
  have := hall d hmem
  rw [hd] at this
  exact absurd this (by decide)

theorem subIDGo_step (f : Nat) (prev : Option Char) (c : Char) (t : Str) :
    subIDGo (f + 1) prev (c :: t)
      = if idRunOK prev (c :: t) then
          idMask ((c :: t).takeWhile isDigitC)
            ++ subIDGo f (some (((c :: t).takeWhile isDigitC).getLastD c))
                (t.drop (((c :: t).takeWhile isDigitC).length - 1))
        else c :: subIDGo f (some c) t := rfl

theorem lastNonWord_step (prev : Option Char) (c : Char) (u : Str)
    (h : lastNonWord prev (c :: u) = true) : lastNonWord (some c) u = true := by
  cases u with
  | nil => simpa [lastNonWord, prevNonWord] using h
  | cons d u' => simpa [lastNonWord, List.getLast?_cons_cons] using h

theorem subIDGo_produces (R v : Str) (h8 : 8 ≤ R.length) (h10 : R.length ≤ 10)
    (hRd : R.all isDigitC = true) (hv : headNonWord v = true) :
    ∀ (fuel : Nat) (prev : Option Char) (u : Str),
      (u ++ R ++ v).length < fuel → lastNonWord prev u = true →
      ∃ a b, subIDGo fuel prev (u ++ R ++ v) = a ++ idMask R ++ b := by
  intro fuel
  induction fuel with
  | zero =>
    intro prev u hlen hu
    omega
  | succ f ih =>
    intro prev u hlen hu
    match u with
    | [] =>
      have hp : prevNonWord prev = true := by simpa [lastNonWord] using hu
      cases hRc : R with
      | nil => rw [hRc] at h8; simp at h8
      | cons r0 R' =>
        subst hRc
        have hok := idRunOK_boundary prev (r0 :: R') v h8 h10 hRd hp hv
        have hrun := takeWhile_digits_flank (r0 :: R') v hRd hv
        simp only [List.cons_append] at hok hrun
        simp only [List.nil_append, List.cons_append]
        rw [subIDGo_step, hrun, if_pos hok]
        refine ⟨[], subIDGo f (some ((r0 :: R').getLastD r0))
          ((R' ++ v).drop ((r0 :: R').length - 1)), ?_⟩
        simp
    | c :: u' =>
      simp only [List.cons_append] at hlen ⊢
      rw [subIDGo_step]
      by_cases hok : idRunOK prev (c :: (u' ++ R ++ v)) = true
      · -- a digit run inside `u` is masked; it cannot cross the last
        -- character of `u`, which is non-word and hence non-digit
        rw [if_pos hok]
        obtain ⟨d, hgl⟩ : ∃ d, (c :: u').getLast? = some d := by
          cases hg : (c :: u').getLast? with
          | none => simp [List.getLast?_eq_none_iff] at hg
          | some d => exact ⟨d, rfl⟩
        have hd : isWordC d = false := by
          simpa [lastNonWord, hgl] using hu
        have hdd : isDigitC d = false := by
          cases hdc : isDigitC d
          · rfl
          · rw [digit_isWord d hdc] at hd
            exact hd
        have hlt := takeWhile_lt_of_last isDigitC (c :: u') (R ++ v) d hgl hdd
        simp only [List.cons_append] at hlt
        rw [← List.append_assoc] at hlt
        have hlt' : ((c :: (u' ++ R ++ v)).takeWhile isDigitC).length < u'.length + 1 := by
          simpa using hlt
        have h8k : 8 ≤ ((c :: (u' ++ R ++ v)).takeWhile isDigitC).length := by
          simp only [idRunOK, Bool.and_eq_true, decide_eq_true_eq] at hok
          exact hok.1.1.2
        set k := ((c :: (u' ++ R ++ v)).takeWhile isDigitC).length with hk
        have hdrop : (u' ++ R ++ v).drop (k - 1) = u'.drop (k - 1) ++ R ++ v := by
          rw [List.append_assoc, List.drop_append_eq_append_drop]
          have hz : k - 1 - u'.length = 0 := by omega
          rw [hz, List.drop_zero, ← List.append_assoc]
        have hu2ne : u'.drop (k - 1) ≠ [] := by
          intro hnil
          have := congrArg List.length hnil
          rw [List.length_drop] at this
          simp at this
          omega
        have hu'ne : u' ≠ [] := by
          intro hnil
          rw [hnil] at hlt'
          simp at hlt'
          omega
        have hgl2 : (u'.drop (k - 1)).getLast? = some d := by
          have h1 : (u'.drop (k - 1)).getLast? = u'.getLast? := by
            conv_rhs => rw [← List.take_append_drop (k - 1) u']
            exact (List.getLast?_append_of_ne_nil _ hu2ne).symm
          have h2 : u'.getLast? = (c :: u').getLast? :=
            (List.getLast?_append_of_ne_nil [c] hu'ne).symm
          rw [h1, h2, hgl]
        have hlw2 : lastNonWord (some (((c :: (u' ++ R ++ v)).takeWhile
            isDigitC).getLastD c)) (u'.drop (k - 1)) = true := by
          simp [lastNonWord, hgl2, hd]
        have hlen2 : (u'.drop (k - 1) ++ R ++ v).length < f := by
          simp only [List.length_append, List.length_drop, List.length_cons] at hlen ⊢
          omega
        obtain ⟨a, b, heq⟩ := ih (some (((c :: (u' ++ R ++ v)).takeWhile
          isDigitC).getLastD c)) (u'.drop (k - 1)) hlen2 hlw2
        refine ⟨idMask ((c :: (u' ++ R ++ v)).takeWhile isDigitC) ++ a, b, ?_⟩
        rw [hdrop, heq]
        simp [List.append_assoc]
      · rw [if_neg hok]
        have hlen2 : (u' ++ R ++ v).length < f := by
          simp only [List.length_append, List.length_cons] at hlen ⊢
          omega
        obtain ⟨a, b, heq⟩ := ih (some c) u' hlen2 (lastNonWord_step prev c u' hu)
        refine ⟨c :: a, b, ?_⟩
        rw [heq]
        rfl

theorem searchIDGo_finds (R v : Str) (h8 : 8 ≤ R.length) (h10 : R.length ≤ 10)
    (hRd : R.all isDigitC = true) (hv : headNonWord v = true) :
    ∀ (u : Str) (prev : Option Char), lastNonWord prev u = true →
      searchIDGo prev (u ++ R ++ v) = true := by
  intro u
  induction u with
  | nil =>
    intro prev hu
    have hp : prevNonWord prev = true := by simpa [lastNonWord] using hu
    have hok := idRunOK_boundary prev R v h8 h10 hRd hp hv
    cases hRc : R with
    | nil => rw [hRc] at h8; simp at h8
    | cons r0 R' =>
      subst hRc
      simp only [List.cons_append] at hok
      simp only [List.nil_append, List.cons_append]
      show (idRunOK prev (r0 :: (R' ++ v)) || searchIDGo (some r0) (R' ++ v)) = true
      rw [hok, Bool.true_or]
  | cons c u' ih =>
    intro prev hu
    simp only [List.cons_append]
    show (idRunOK prev (c :: (u' ++ R ++ v)) || searchIDGo (some c) (u' ++ R ++ v)) = true
    rw [ih (some c) (lastNonWord_step prev c u' hu), Bool.or_true]

theorem idMask_form (R : Str) (h8 : 8 ≤ R.length) :
    ∃ x0 x1 z0 z1, idMask R = x0 :: x1 :: '*' :: '*' :: '*' :: z0 :: z1 :: [] := by
  cases R with
  | nil => simp at h8
  | cons r0 R1 =>
    cases R1 with
    | nil => simp at h8
    | cons r1 R' =>
      have hlast : (pyTakeLast 2 (r0 :: r1 :: R')).length = 2 := by
        unfold pyTakeLast
        rw [List.length_drop]
        simp only [List.length_cons] at h8 ⊢
        omega
      cases hzl : pyTakeLast 2 (r0 :: r1 :: R') with
      | nil => rw [hzl] at hlast; simp at hlast
      | cons z0 Z1 =>
        cases Z1 with
        | nil => rw [hzl] at hlast; simp at hlast
        | cons z1 Z2 =>
          cases Z2 with
          | cons z2 Z3 => rw [hzl] at hlast; simp at hlast
          | nil =>
            refine ⟨r0, r1, z0, z1, ?_⟩
            unfold idMask
            rw [hzl]
            rfl

/-! ## Soundness of the phone matcher

Any position reported by `phoneAt` matches at least 8 characters, stays
within the string, and consumes only digits and separators — so a phone
match can never contain `'*'`. -/

theorem digitsAt_sound (n : Nat) (s : Str) (h : digitsAt n s = true) :
    n ≤ s.length ∧ (s.take n).all isDigitC = true := by
  simp only [digitsAt, Bool.and_eq_true, decide_eq_true_eq] at h
  obtain ⟨h1, h2⟩ := h
  refine ⟨?_, h2⟩
  rw [List.length_take] at h1
  omega

theorem all_imp (p q : Char → Bool) (l : Str) (h : l.all p = true)
    (himp : ∀ c, p c = true → q c = true) : l.all q = true := by
  rw [List.all_eq_true] at h ⊢
  exact fun x hx => himp x (h x hx)

theorem digit_phoneC (c : Char) (h : isDigitC c = true) : phoneC c = true := by
  simp [phoneC, h]

theorem sep_phoneC (c : Char) (h : sepC c = true) : phoneC c = true := by
  simp [phoneC, h]

theorem all_take_add (p : Char → Bool) (s : Str) (i j : Nat)
    (h1 : (s.take i).all p = true) (h2 : ((s.drop i).take j).all p = true) :
    (s.take (i + j)).all p = true := by
  rw [List.take_add, List.all_append]
  simp [h1, h2]

theorem drop_cons_of_head (s : Str) (d : Nat) (c : Char)
    (h : (s.drop d).head? = some c) : s.drop d = c :: s.drop (d + 1) := by
  cases he : s.drop d with
  | nil => rw [he] at h; cases h
  | cons c' t =>
    rw [he] at h
    injection h with hc
    subst hc
    have h5 : s.drop (d + 1) = t := by
      have := congrArg (List.drop 1) he
      simpa [List.drop_drop, Nat.add_comm] using this
    rw [h5]

theorem phoneTail_sound (s : Str) (n : Nat) (h : phoneTail s = some n) :
    8 ≤ n ∧ n ≤ s.length ∧ (s.take n).all phoneC = true := by
  simp only [phoneTail] at h
  by_cases h4 : digitsAt 4 s = true
  · rw [if_pos h4] at h
    obtain ⟨hl4, ha4⟩ := digitsAt_sound 4 s h4
    have ha4p : (s.take 4).all phoneC = true := all_imp _ _ _ ha4 digit_phoneC
    cases hdc : (s.drop 4).head? with
    | none =>
      rw [hdc] at h
      replace h : (none : Option Nat) = some n := h
      cases h
    | some c =>
      rw [hdc] at h
      replace h : (if sepC c = true then
          (if digitsAt 4 ((s.drop 4).drop 1) = true then some 9 else none)
          else if digitsAt 4 (s.drop 4) = true then some 8 else none) = some n := h
      have hcons : s.drop 4 = c :: s.drop 5 := drop_cons_of_head s 4 c hdc
      by_cases hsep : sepC c = true
      · rw [if_pos hsep] at h
        by_cases h44 : digitsAt 4 ((s.drop 4).drop 1) = true
        · rw [if_pos h44] at h
          injection h with hn
          subst hn
          have hd51 : (s.drop 4).drop 1 = s.drop 5 := by rw [hcons]; rfl
          rw [hd51] at h44
          obtain ⟨hl44, ha44⟩ := digitsAt_sound 4 (s.drop 5) h44
          simp only [List.length_drop] at hl4 hl44
          refine ⟨by omega, by omega, ?_⟩
          rw [show (9 : Nat) = 4 + 5 from rfl]
          refine all_take_add phoneC s 4 5 ha4p ?_
          rw [hcons]
          have ht5 : (c :: s.drop 5).take 5 = c :: (s.drop 5).take 4 := rfl
          rw [ht5, List.all_cons, sep_phoneC c hsep, Bool.true_and]
          exact all_imp _ _ _ ha44 digit_phoneC
        · rw [if_neg h44] at h; cases h
      · rw [if_neg hsep] at h
        by_cases h48 : digitsAt 4 (s.drop 4) = true
        · rw [if_pos h48] at h
          injection h with hn
          subst hn
          obtain ⟨hl48, ha48⟩ := digitsAt_sound 4 (s.drop 4) h48
          simp only [List.length_drop] at hl4 hl48
          refine ⟨by omega, by omega, ?_⟩
          rw [show (8 : Nat) = 4 + 4 from rfl]
          exact all_take_add phoneC s 4 4 ha4p (all_imp _ _ _ ha48 digit_phoneC)
        · rw [if_neg h48] at h; cases h
  · rw [if_neg h4] at h; cases h

theorem phoneIterWith_sound (recf : Str → Option Nat) (s : Str) (d n : Nat)
    (hrec : ∀ t m, recf t = some m →
      8 ≤ m ∧ m ≤ t.length ∧ (t.take m).all phoneC = true)
    (h : phoneIterWith recf s d = some n) :
    8 ≤ n ∧ n ≤ s.length ∧ (s.take n).all phoneC = true := by
  simp only [phoneIterWith] at h
  by_cases hd4 : digitsAt d s = true
  · rw [if_pos hd4] at h
    obtain ⟨hld, had⟩ := digitsAt_sound d s hd4
    have hadp : (s.take d).all phoneC = true := all_imp _ _ _ had digit_phoneC
    cases hdc : (s.drop d).head? with
    | none =>
      rw [hdc] at h
      replace h : (recf (s.drop d)).map (fun k => k + d) = some n := h
      cases hr : recf (s.drop d) with
      | none => rw [hr] at h; exact absurd h (by simp)
      | some m =>
        obtain ⟨h8m, hlm, -⟩ := hrec _ m hr
        have hnil : s.drop d = [] := by
          cases he : s.drop d with
          | nil => rfl
          | cons a t => rw [he] at hdc; cases hdc
        rw [hnil] at hlm
        simp at hlm
        omega
    | some c =>
      rw [hdc] at h
      replace h : (if sepC c = true then
          ((recf ((s.drop d).drop 1)).map (fun k => k + d + 1) <|>
            (recf (s.drop d)).map (fun k => k + d))
          else (recf (s.drop d)).map (fun k => k + d)) = some n := h
      have hcons : s.drop d = c :: s.drop (d + 1) := drop_cons_of_head s d c hdc
      by_cases hsep : sepC c = true
      · rw [if_pos hsep] at h
        cases hr1 : recf ((s.drop d).drop 1) with
        | some m =>
          rw [hr1] at h
          have h2 : some (m + d + 1) = some n := h
          injection h2 with hn
          have hd51 : (s.drop d).drop 1 = s.drop (d + 1) := by rw [hcons]; rfl
          rw [hd51] at hr1
          obtain ⟨h8m, hlm, ham⟩ := hrec _ m hr1
          simp only [List.length_drop] at hld hlm
          refine ⟨by omega, by omega, ?_⟩
          rw [show n = d + (m + 1) by omega]
          refine all_take_add phoneC s d (m + 1) hadp ?_
          rw [hcons]
          have ht : (c :: s.drop (d + 1)).take (m + 1) = c :: (s.drop (d + 1)).take m :=
            rfl
          rw [ht, List.all_cons, sep_phoneC c hsep, Bool.true_and]
          exact ham
        | none =>
          rw [hr1] at h
          cases hr2 : recf (s.drop d) with
          | none => rw [hr2] at h; simp at h
          | some m =>
            rw [hr2] at h
            have h2 : some (m + d) = some n := h
            injection h2 with hn
            obtain ⟨h8m, hlm, ham⟩ := hrec _ m hr2
            simp only [List.length_drop] at hld hlm
            refine ⟨by omega, by omega, ?_⟩
            rw [show n = d + m by omega]
            exact all_take_add phoneC s d m hadp ham
      · rw [if_neg hsep] at h
        cases hr2 : recf (s.drop d) with
        | none => rw [hr2] at h; simp at h
        | some m =>
          rw [hr2] at h
          have h2 : some (m + d) = some n := h
          injection h2 with hn
          obtain ⟨h8m, hlm, ham⟩ := hrec _ m hr2
          simp only [List.length_drop] at hld hlm
          refine ⟨by omega, by omega, ?_⟩
          rw [show n = d + m by omega]
          exact all_take_add phoneC s d m hadp ham
  · rw [if_neg hd4] at h; cases h

theorem phoneCore_sound : ∀ (f : Nat) (s : Str) (n : Nat),
    phoneCore f s = some n →
    8 ≤ n ∧ n ≤ s.length ∧ (s.take n).all phoneC = true := by
  intro f
  induction f with
  | zero => intro s n h; cases h
  | succ f ih =>
    intro s n h
    simp only [phoneCore] at h
    cases h4 : phoneIterWith (phoneCore f) s 4 with
    | some k =>
      rw [h4] at h
      have h2 : some k = some n := h
      injection h2 with hk
      subst hk
      exact phoneIterWith_sound (phoneCore f) s 4 _ (fun t m ht => ih t m ht) h4
    | none =>
      rw [h4] at h
      have h' : (phoneIterWith (phoneCore f) s 3 <|>
          (phoneIterWith (phoneCore f) s 2 <|> phoneTail s)) = some n := h
      cases h3 : phoneIterWith (phoneCore f) s 3 with
      | some k =>
        rw [h3] at h'
        have h2 : some k = some n := h'
        injection h2 with hk
        subst hk
        exact phoneIterWith_sound (phoneCore f) s 3 _ (fun t m ht => ih t m ht) h3
      | none =>
        rw [h3] at h'
        have h'' : (phoneIterWith (phoneCore f) s 2 <|> phoneTail s) = some n := h'
        cases h2c : phoneIterWith (phoneCore f) s 2 with
        | some k =>
          rw [h2c] at h''
          have h2 : some k = some n := h''
          injection h2 with hk
          subst hk
          exact phoneIterWith_sound (phoneCore f) s 2 _ (fun t m ht => ih t m ht) h2c
        | none =>
          rw [h2c] at h''
          have hT : phoneTail s = some n := h''
          exact phoneTail_sound s n hT

theorem phoneAt_sound (s : Str) (n : Nat) (h : phoneAt s = some n) :
    8 ≤ n ∧ n ≤ s.length ∧ (s.take n).all phoneC = true :=
  phoneCore_sound (s.length + 1) s n h

theorem phoneAt_no_star (s : Str) (n : Nat) (h : phoneAt s = some n)
    (j : Nat) (hj : j < n) : s[j]? ≠ some '*' := by
  obtain ⟨h8, hle, hall⟩ := phoneAt_sound s n h
  intro hstar
  have hjt : (s.take n)[j]? = some '*' := by
    rw [List.getElem?_take_of_lt hj]
    exact hstar
  obtain ⟨hlt, hEq⟩ := List.getElem?_eq_some.mp hjt
  have hmem : '*' ∈ s.take n := by
    rw [← hEq]
    exact List.getElem_mem _
  rw [List.all_eq_true] at hall
  have := hall '*' hmem
  exact absurd this (by decide)

theorem phoneAt_none_of_star (s : Str) (j : Nat) (hj : j ≤ 7)
    (hstar : s[j]? = some '*') : phoneAt s = none := by
  cases h : phoneAt s with
  | none => rfl
  | some n =>
    have h8 := (phoneAt_sound s n h).1
    exact absurd hstar (phoneAt_no_star s n h j (by omega))

theorem subPhoneGo_step_none (f : Nat) (c : Char) (t : Str)
    (h : phoneAt (c :: t) = none) :
    subPhoneGo (f + 1) (c :: t) = c :: subPhoneGo f t := by
  show (match phoneAt (c :: t) with
    | some n => phoneRepl ((c :: t).take n) ++ subPhoneGo f ((c :: t).drop (max n 1))
    | none => c :: subPhoneGo f t) = _
  rw [h]

theorem subPhoneGo_step_some (f : Nat) (c : Char) (t : Str) (n : Nat)
    (h : phoneAt (c :: t) = some n) (h1 : 1 ≤ n) :
    subPhoneGo (f + 1) (c :: t)
      = phoneRepl ((c :: t).take n) ++ subPhoneGo f ((c :: t).drop n) := by
  show (match phoneAt (c :: t) with
    | some n => phoneRepl ((c :: t).take n) ++ subPhoneGo f ((c :: t).drop (max n 1))
    | none => c :: subPhoneGo f t) = _
  rw [h]
  show phoneRepl ((c :: t).take n) ++ subPhoneGo f ((c :: t).drop (max n 1)) = _
  rw [Nat.max_eq_left h1]

theorem phoneRepl_cons (c : Char) (X : Str) :
    phoneRepl (c :: X) = c :: (X.take 1 ++ (S "***" ++ pyTakeLast 3 (c :: X))) := by
  unfold phoneRepl pyTake
  have h2 : (c :: X).take 2 = c :: X.take 1 := rfl
  rw [h2]
  simp

theorem phoneRepl_cons2 (c d : Char) (X : Str) :
    phoneRepl (c :: d :: X) = c :: d :: (S "***" ++ pyTakeLast 3 (c :: d :: X)) := by
  unfold phoneRepl pyTake
  have h2 : (c :: d :: X).take 2 = [c, d] := rfl
  rw [h2]
  simp

theorem subPhoneGo_head (fuel : Nat) (c : Char) (t : Str) :
    ∃ u, subPhoneGo fuel (c :: t) = c :: u := by
  match fuel with
  | 0 => exact ⟨t, rfl⟩
  | f + 1 =>
    cases h : phoneAt (c :: t) with
    | none => exact ⟨subPhoneGo f t, subPhoneGo_step_none f c t h⟩
    | some n =>
      have h8 := (phoneAt_sound _ n h).1
      obtain ⟨n', rfl⟩ : ∃ n', n = n' + 1 := ⟨n - 1, by omega⟩
      refine ⟨(t.take n').take 1 ++ (S "***" ++ pyTakeLast 3 (c :: t.take n'))
          ++ subPhoneGo f ((c :: t).drop (n' + 1)), ?_⟩
      rw [subPhoneGo_step_some f c t (n' + 1) h (by omega)]
      have htake : (c :: t).take (n' + 1) = c :: t.take n' := rfl
      rw [htake, phoneRepl_cons]
      simp

theorem subPhoneGo_head2 (fuel : Nat) (c d : Char) (t : Str) :
    ∃ u, subPhoneGo fuel (c :: d :: t) = c :: d :: u := by
  match fuel with
  | 0 => exact ⟨t, rfl⟩
  | f + 1 =>
    cases h : phoneAt (c :: d :: t) with
    | none =>
      obtain ⟨u, hu⟩ := subPhoneGo_head f d t
      exact ⟨u, by rw [subPhoneGo_step_none f c _ h, hu]⟩
    | some n =>
      have h8 := (phoneAt_sound _ n h).1
      obtain ⟨n', rfl⟩ : ∃ n', n = n' + 2 := ⟨n - 2, by omega⟩
      refine ⟨(S "***" ++ pyTakeLast 3 (c :: d :: t.take n'))
          ++ subPhoneGo f ((c :: d :: t).drop (n' + 2)), ?_⟩
      rw [subPhoneGo_step_some f c _ _ h (by omega)]
      have htake : (c :: d :: t).take (n' + 2) = c :: d :: t.take n' := rfl
      rw [htake, phoneRepl_cons2]
      simp

theorem subPhoneGo_run3star (g : Nat) (z0 z1 : Char) (b : Str) :
    ∃ u, subPhoneGo (g + 3) ('*' :: '*' :: '*' :: z0 :: z1 :: b)
      = '*' :: '*' :: '*' :: z0 :: z1 :: u := by
  have h1 : phoneAt ('*' :: '*' :: '*' :: z0 :: z1 :: b) = none :=
    phoneAt_none_of_star _ 0 (by omega) rfl
  have h2 : phoneAt ('*' :: '*' :: z0 :: z1 :: b) = none :=
    phoneAt_none_of_star _ 0 (by omega) rfl
  have h3 : phoneAt ('*' :: z0 :: z1 :: b) = none :=
    phoneAt_none_of_star _ 0 (by omega) rfl
  obtain ⟨u, hu⟩ := subPhoneGo_head2 g z0 z1 b
  exact ⟨u, by
    rw [subPhoneGo_step_none _ _ _ h1, subPhoneGo_step_none _ _ _ h2,
      subPhoneGo_step_none _ _ _ h3, hu]⟩

theorem subPhoneGo_run4 (g : Nat) (x1 z0 z1 : Char) (b : Str) :
    ∃ u, subPhoneGo (g + 4) (x1 :: '*' :: '*' :: '*' :: z0 :: z1 :: b)
      = x1 :: '*' :: '*' :: '*' :: z0 :: z1 :: u := by
  have h0 : phoneAt (x1 :: '*' :: '*' :: '*' :: z0 :: z1 :: b) = none :=
    phoneAt_none_of_star _ 1 (by omega) rfl
  obtain ⟨u, hu⟩ := subPhoneGo_run3star g z0 z1 b
  exact ⟨u, by rw [subPhoneGo_step_none _ _ _ h0, hu]⟩

theorem subPhoneGo_run5 (g : Nat) (x0 x1 z0 z1 : Char) (b : Str) :
    ∃ u, subPhoneGo (g + 5) (x0 :: x1 :: '*' :: '*' :: '*' :: z0 :: z1 :: b)
      = x0 :: x1 :: '*' :: '*' :: '*' :: z0 :: z1 :: u := by
  have h0 : phoneAt (x0 :: x1 :: '*' :: '*' :: '*' :: z0 :: z1 :: b) = none :=
    phoneAt_none_of_star _ 2 (by omega) rfl
  obtain ⟨u, hu⟩ := subPhoneGo_run4 g x1 z0 z1 b
  exact ⟨u, by rw [subPhoneGo_step_none _ _ _ h0, hu]⟩

theorem subPhoneGo_mask (x0 x1 z0 z1 : Char) :
    ∀ (fuel : Nat) (a b : Str),
      (a ++ x0 :: x1 :: '*' :: '*' :: '*' :: z0 :: z1 :: b).length < fuel →
      ∃ a2 b2, subPhoneGo fuel (a ++ x0 :: x1 :: '*' :: '*' :: '*' :: z0 :: z1 :: b)
        = a2 ++ x0 :: x1 :: '*' :: '*' :: '*' :: z0 :: z1 :: b2 := by
  intro fuel
  induction fuel with
  | zero =>
    intro a b hlen
    omega
  | succ f ih =>
    intro a b hlen
    match a with
    | [] =>
      simp only [List.length_append, List.length_cons, List.length_nil,
        List.nil_append] at hlen ⊢
      obtain ⟨g, hg⟩ : ∃ g, f + 1 = g + 5 := ⟨f - 4, by omega⟩
      rw [hg]
      obtain ⟨u, hu⟩ := subPhoneGo_run5 g x0 x1 z0 z1 b
      exact ⟨[], u, by rw [hu]; rfl⟩
    | c :: a' =>
      simp only [List.cons_append] at hlen ⊢
      cases h : phoneAt (c :: (a' ++ x0 :: x1 :: '*' :: '*' :: '*' :: z0 :: z1 :: b)) with
      | none =>
        have hlen2 : (a' ++ x0 :: x1 :: '*' :: '*' :: '*' :: z0 :: z1 :: b).length < f := by
          simp only [List.length_cons] at hlen
          omega
        obtain ⟨a2, b2, heq⟩ := ih a' b hlen2
        exact ⟨c :: a2, b2, by rw [subPhoneGo_step_none _ _ _ h, heq]; rfl⟩
      | some n =>
        obtain ⟨h8, hle, -⟩ := phoneAt_sound _ n h
        have hrest : c :: (a' ++ x0 :: x1 :: '*' :: '*' :: '*' :: z0 :: z1 :: b)
            = (c :: (a' ++ x0 :: x1 :: '*' :: '*' :: '*' :: z0 :: z1 :: b)).take n
              ++ (c :: (a' ++ x0 :: x1 :: '*' :: '*' :: '*' :: z0 :: z1 :: b)).drop n :=
          (List.take_append_drop n _).symm
        have hmlen : ((c :: (a' ++ x0 :: x1 :: '*' :: '*' :: '*' :: z0 :: z1 :: b)).take
            n).length = n := by
          rw [List.length_take]
          omega
        have hstep := subPhoneGo_step_some f c
          (a' ++ x0 :: x1 :: '*' :: '*' :: '*' :: z0 :: z1 :: b) n h (by omega)
        by_cases hk1 : n ≤ (c :: a').length
        · -- the match lies inside `a`
          have hover : (c :: (a' ++ x0 :: x1 :: '*' :: '*' :: '*' :: z0 :: z1 :: b)).take n
                ++ (c :: (a' ++ x0 :: x1 :: '*' :: '*' :: '*' :: z0 :: z1 :: b)).drop n
              = (c :: a') ++ (x0 :: x1 :: '*' :: '*' :: '*' :: z0 :: z1 :: b) := by
            rw [← hrest]
            rfl
          obtain ⟨w, hw1, hw2⟩ := append_overlap _ _ _ _ hover (by rw [hmlen]; exact hk1)
          have hlenr : (w ++ x0 :: x1 :: '*' :: '*' :: '*' :: z0 :: z1 :: b).length < f := by
            have e2 := congrArg List.length hw1
            simp only [List.length_append, List.length_cons, hmlen] at e2 hlen ⊢
            omega
          obtain ⟨a2, b2, heq⟩ := ih w b (by simpa using hlenr)
          refine ⟨phoneRepl ((c :: (a' ++ x0 :: x1 :: '*' :: '*' :: '*' :: z0 :: z1
            :: b)).take n) ++ a2, b2, ?_⟩
          rw [hstep, hw2, heq]
          simp [List.append_assoc]
        · by_cases hk2 : n = (c :: a').length + 1
          · -- the match ends exactly at x0
            have hm : (c :: (a' ++ x0 :: x1 :: '*' :: '*' :: '*' :: z0 :: z1 :: b)).take n
                = (c :: a') ++ [x0] := by
              rw [hk2]
              show ((c :: a') ++ x0 :: x1 :: '*' :: '*' :: '*' :: z0 :: z1 :: b).take
                  ((c :: a').length + 1) = _
              rw [List.take_append_eq_append_take]
              have h1 : (c :: a').length + 1 - (c :: a').length = 1 := by omega
              rw [List.take_of_length_le (by omega), h1]
              rfl
            have hrest2 : (c :: (a' ++ x0 :: x1 :: '*' :: '*' :: '*' :: z0 :: z1 :: b)).drop n
                = x1 :: '*' :: '*' :: '*' :: z0 :: z1 :: b := by
              rw [hk2]
              show ((c :: a') ++ x0 :: x1 :: '*' :: '*' :: '*' :: z0 :: z1 :: b).drop
                  ((c :: a').length + 1) = _
              rw [List.drop_append_eq_append_drop]
              have h1 : (c :: a').length + 1 - (c :: a').length = 1 := by omega
              rw [List.drop_eq_nil_of_le (by omega), h1]
              rfl
            have hTLsuf : pyTakeLast 3 ((c :: (a' ++ x0 :: x1 :: '*' :: '*' :: '*' :: z0
                  :: z1 :: b)).take n)
                <:+ (c :: (a' ++ x0 :: x1 :: '*' :: '*' :: '*' :: z0 :: z1 :: b)).take n :=
              List.drop_suffix _ _
            have hx0suf : [x0] <:+ (c :: (a' ++ x0 :: x1 :: '*' :: '*' :: '*' :: z0 :: z1
                :: b)).take n := by
              rw [hm]
              exact ⟨c :: a', rfl⟩
            obtain ⟨D1, hD1⟩ := suffix_of_suffix_le [x0]
              (pyTakeLast 3 ((c :: (a' ++ x0 :: x1 :: '*' :: '*' :: '*' :: z0 :: z1
                :: b)).take n))
              ((c :: (a' ++ x0 :: x1 :: '*' :: '*' :: '*' :: z0 :: z1 :: b)).take n)
              hx0suf hTLsuf
              (by
                simp only [pyTakeLast, List.length_drop, List.length_cons,
                  List.length_nil, hmlen]
                omega)
            obtain ⟨g, hgf⟩ : ∃ g, f = g + 4 := ⟨f - 4, by
              simp only [List.length_cons, List.length_append] at hlen
              omega⟩
            obtain ⟨u, hu⟩ := subPhoneGo_run4 g x1 z0 z1 b
            refine ⟨pyTake 2 ((c :: (a' ++ x0 :: x1 :: '*' :: '*' :: '*' :: z0 :: z1
              :: b)).take n) ++ S "***" ++ D1, u, ?_⟩
            rw [hstep, hrest2, hgf, hu]
            have hrepl : phoneRepl ((c :: (a' ++ x0 :: x1 :: '*' :: '*' :: '*' :: z0 :: z1
                  :: b)).take n)
                = (pyTake 2 ((c :: (a' ++ x0 :: x1 :: '*' :: '*' :: '*' :: z0 :: z1
                  :: b)).take n) ++ S "***" ++ D1) ++ [x0] := by
              unfold phoneRepl
              simp only [List.append_assoc]
              rw [← hD1]
            rw [hrepl]
            simp [List.append_assoc]
          · by_cases hk3 : n = (c :: a').length + 2
            · -- the match ends exactly at x1
              have hm : (c :: (a' ++ x0 :: x1 :: '*' :: '*' :: '*' :: z0 :: z1 :: b)).take n
                  = (c :: a') ++ [x0, x1] := by
                rw [hk3]
                show ((c :: a') ++ x0 :: x1 :: '*' :: '*' :: '*' :: z0 :: z1 :: b).take
                    ((c :: a').length + 2) = _
                rw [List.take_append_eq_append_take]
                have h1 : (c :: a').length + 2 - (c :: a').length = 2 := by omega
                rw [List.take_of_length_le (by omega), h1]
                rfl
              have hrest2 : (c :: (a' ++ x0 :: x1 :: '*' :: '*' :: '*' :: z0 :: z1
                  :: b)).drop n = '*' :: '*' :: '*' :: z0 :: z1 :: b := by
                rw [hk3]
                show ((c :: a') ++ x0 :: x1 :: '*' :: '*' :: '*' :: z0 :: z1 :: b).drop
                    ((c :: a').length + 2) = _
                rw [List.drop_append_eq_append_drop]
                have h1 : (c :: a').length + 2 - (c :: a').length = 2 := by omega
                rw [List.drop_eq_nil_of_le (by omega), h1]
                rfl
              have hTLsuf : pyTakeLast 3 ((c :: (a' ++ x0 :: x1 :: '*' :: '*' :: '*' :: z0
                    :: z1 :: b)).take n)
                  <:+ (c :: (a' ++ x0 :: x1 :: '*' :: '*' :: '*' :: z0 :: z1 :: b)).take n :=
                List.drop_suffix _ _
              have hx01suf : [x0, x1] <:+ (c :: (a' ++ x0 :: x1 :: '*' :: '*' :: '*' :: z0
                  :: z1 :: b)).take n := by
                rw [hm]
                exact ⟨c :: a', rfl⟩
              obtain ⟨D1, hD1⟩ := suffix_of_suffix_le [x0, x1]
                (pyTakeLast 3 ((c :: (a' ++ x0 :: x1 :: '*' :: '*' :: '*' :: z0 :: z1
                  :: b)).take n))
                ((c :: (a' ++ x0 :: x1 :: '*' :: '*' :: '*' :: z0 :: z1 :: b)).take n)
                hx01suf hTLsuf
                (by
                  simp only [pyTakeLast, List.length_drop, List.length_cons,
                    List.length_nil, hmlen]
                  omega)
              obtain ⟨g, hgf⟩ : ∃ g, f = g + 3 := ⟨f - 3, by
                simp only [List.length_cons, List.length_append] at hlen
                omega⟩
              obtain ⟨u, hu⟩ := subPhoneGo_run3star g z0 z1 b
              refine ⟨pyTake 2 ((c :: (a' ++ x0 :: x1 :: '*' :: '*' :: '*' :: z0 :: z1
                :: b)).take n) ++ S "***" ++ D1, u, ?_⟩
              rw [hstep, hrest2, hgf, hu]
              have hrepl : phoneRepl ((c :: (a' ++ x0 :: x1 :: '*' :: '*' :: '*' :: z0
                    :: z1 :: b)).take n)
                  = (pyTake 2 ((c :: (a' ++ x0 :: x1 :: '*' :: '*' :: '*' :: z0 :: z1
                    :: b)).take n) ++ S "***" ++ D1) ++ [x0, x1] := by
                unfold phoneRepl
                simp only [List.append_assoc]
                rw [← hD1]
              rw [hrepl]
              simp [List.append_assoc]
            · -- the match would have to contain a star: impossible
              exfalso
              have hstar : (c :: (a' ++ x0 :: x1 :: '*' :: '*' :: '*' :: z0 :: z1
                  :: b))[(c :: a').length + 2]? = some '*' := by
                show ((c :: a') ++ x0 :: x1 :: '*' :: '*' :: '*' :: z0 :: z1
                  :: b)[(c :: a').length + 2]? = some '*'
                rw [List.getElem?_append_right (by omega)]
                simp
              exact phoneAt_no_star _ n h ((c :: a').length + 2) (by omega) hstar

/-! ## The email pass on a well-formed `local@domain.tld` substring

When the surrounding text cannot feed characters into the match (`u` ends
in a character outside `[\w.-@]`, `v` starts outside `[\w.-]`), the scanner
reaches the decomposition position and matches exactly `loc@dm.tld`, whose
replacement keeps `***@dm.tld`. -/

theorem word_classE (c : Char) (h : isWordC c = true) : classE c = true := by
  simp [classE, h]

theorem find_range_reverse (p : Nat → Bool) (m : Nat) :
    ∀ n, m < n → p m = true → (∀ j, m < j → j < n → p j = false) →
      (List.range n).reverse.find? p = some m := by
  intro n
  induction n with
  | zero => intro h; omega
  | succ k ih =>
    intro hmn hm hj
    rw [List.range_succ, List.reverse_append]
    simp only [List.reverse_singleton, List.singleton_append]
    by_cases hk : m = k
    · subst hk
      exact List.find?_cons_of_pos _ hm
    · have hpk : p k = false := hj k (by omega) (by omega)
      rw [List.find?_cons_of_neg _ (by simp [hpk])]
      exact ih (by omega) hm (fun j h1 h2 => hj j h1 (by omega))

theorem emailSplit_boundary (dm tld : Str) (hdm : dm ≠ [])
    (htld : tld ≠ []) (htw : tld.all isWordC = true) :
    emailSplit (dm ++ '.' :: tld) = some dm.length := by
  unfold emailSplit
  apply find_range_reverse
  · simp only [List.length_append, List.length_cons]
    have := List.length_pos.mpr htld
    omega
  · unfold emailSplitOK
    have hdot : (dm ++ '.' :: tld)[dm.length]? = some '.' := by
      rw [List.getElem?_append_right (by omega)]
      simp
    cases tld with
    | nil => exact absurd rfl htld
    | cons w0 tld' =>
      have hw0 : (dm ++ '.' :: w0 :: tld')[dm.length + 1]? = some w0 := by
        rw [List.getElem?_append_right (by omega)]
        have h1 : dm.length + 1 - dm.length = 1 := by omega
        rw [h1]
        simp
      have hw0w : isWordC w0 = true := by
        rw [List.all_eq_true] at htw
        exact htw w0 (by simp)
      have h1 : 1 ≤ dm.length := List.length_pos.mpr hdm
      simp [hdot, hw0, hw0w, h1]
  · intro j h1 h2
    simp only [List.length_append, List.length_cons] at h2
    have hj1 : dm.length + 1 ≤ j := by omega
    have hch : ∃ ch, (dm ++ '.' :: tld)[j]? = some ch ∧ ch ∈ tld := by
      have hidx : (dm ++ '.' :: tld)[j]? = tld[j - dm.length - 1]? := by
        rw [List.getElem?_append_right (by omega)]
        have h3 : j - dm.length = (j - dm.length - 1) + 1 := by omega
        rw [h3]
        simp
      cases hc : tld[j - dm.length - 1]? with
      | none =>
        rw [List.getElem?_eq_none_iff] at hc
        omega
      | some ch =>
        exact ⟨ch, by rw [hidx, hc], List.getElem?_mem hc⟩
    obtain ⟨ch, hch1, hch2⟩ := hch
    have hchw : isWordC ch = true := by
      rw [List.all_eq_true] at htw
      exact htw ch hch2
    have hchne : ch ≠ '.' := by
      intro hd
      rw [hd] at hchw
      exact absurd hchw (by decide)
    unfold emailSplitOK
    simp [hch1, hchne]

theorem takeWhile_classE_flank (A v : Str) (hA : A.all classE = true)
    (hv : headNotClassE v = true) : (A ++ v).takeWhile classE = A := by
  rw [takeWhile_all_append classE A v hA]
  cases v with
  | nil => simp
  | cons c v' =>
    have hc : classE c = false := by simpa [headNotClassE] using hv
    rw [takeWhile_nil_of_head _ _ _ hc, List.append_nil]

theorem emailAt_boundary (loc dm tld v : Str)
    (hloc : loc ≠ []) (hlocE : loc.all classE = true)
    (hdm : dm ≠ []) (hdmE : dm.all classE = true)
    (htld : tld ≠ []) (htw : tld.all isWordC = true)
    (hv : headNotClassE v = true) :
    emailAt (loc ++ '@' :: (dm ++ '.' :: (tld ++ v))) = some ⟨loc, dm, tld⟩ := by
  have htldE : tld.all classE = true := all_imp isWordC classE tld htw word_classE
  have hdotE : (dm ++ '.' :: tld).all classE = true := by
    rw [List.all_append, List.all_cons, hdmE, htldE]
    decide
  have hs2 : (dm ++ '.' :: (tld ++ v)).takeWhile classE = dm ++ '.' :: tld := by
    have hassoc : dm ++ '.' :: (tld ++ v) = (dm ++ '.' :: tld) ++ v := by
      simp
    rw [hassoc, takeWhile_classE_flank _ _ hdotE hv]
  have htw1 : (loc ++ '@' :: (dm ++ '.' :: (tld ++ v))).takeWhile classE = loc := by
    rw [takeWhile_all_append classE loc _ hlocE,
      takeWhile_nil_of_head _ _ _ (by decide : classE '@' = false), List.append_nil]
  have hdrop : (loc ++ '@' :: (dm ++ '.' :: (tld ++ v))).drop loc.length
      = '@' :: (dm ++ '.' :: (tld ++ v)) := List.drop_left _ _
  unfold emailAt
  rw [htw1, if_neg hloc, hdrop]
  show (match emailSplit ((dm ++ '.' :: (tld ++ v)).takeWhile classE) with
    | some j =>
      some (⟨loc, ((dm ++ '.' :: (tld ++ v)).takeWhile classE).take j,
        (((dm ++ '.' :: (tld ++ v)).takeWhile classE).drop (j + 1)).takeWhile
          isWordC⟩ : EMatch)
    | none => none) = some ⟨loc, dm, tld⟩
  rw [hs2, emailSplit_boundary dm tld hdm htld htw]
  show some (⟨loc, (dm ++ '.' :: tld).take dm.length,
    ((dm ++ '.' :: tld).drop (dm.length + 1)).takeWhile isWordC⟩ : EMatch) = _
  have htake : (dm ++ '.' :: tld).take dm.length = dm := List.take_left _ _
  have hdrop2 : (dm ++ '.' :: tld).drop (dm.length + 1) = tld := by
    rw [List.drop_append_eq_append_drop, List.drop_eq_nil_of_le (by omega)]
    have h1 : dm.length + 1 - dm.length = 1 := by omega
    rw [h1]
    rfl
  have htwt : tld.takeWhile isWordC = tld := by
    have := takeWhile_all_append isWordC tld [] htw
    simpa using this
  rw [htake, hdrop2, htwt]

theorem emailAt_char_at (s : Str) (em : EMatch) (h : emailAt s = some em)
    (j : Nat) (hj : j < emLen em) (ch : Char) (hch : s[j]? = some ch) :
    classE ch = true ∨ ch = '@' := by
  obtain ⟨⟨rest, hrest⟩, -⟩ := emailAt_sound s em h
  have hjm : j < (ematchStr em).length := by rw [emLen_length]; exact hj
  rw [hrest, List.getElem?_append_left hjm] at hch
  exact ematchStr_chars s em h ch (List.getElem?_mem hch)

theorem lastNotEmailC_tail (c : Char) (u : Str)
    (h : lastNotEmailC (c :: u) = true) : lastNotEmailC u = true := by
  cases u with
  | nil => rfl
  | cons d u' => simpa [lastNotEmailC, List.getLast?_cons_cons] using h

theorem subEmailGo_finds (loc dm tld v : Str)
    (hloc : loc ≠ []) (hlocE : loc.all classE = true)
    (hdm : dm ≠ []) (hdmE : dm.all classE = true)
    (htld : tld ≠ []) (htw : tld.all isWordC = true)
    (hv : headNotClassE v = true) :
    ∀ (fuel : Nat) (u : Str),
      (u ++ (loc ++ '@' :: (dm ++ '.' :: (tld ++ v)))).length < fuel →
      lastNotEmailC u = true →
      ∃ a b, subEmailGo fuel (u ++ (loc ++ '@' :: (dm ++ '.' :: (tld ++ v))))
        = a ++ (S "***@" ++ dm ++ '.' :: tld) ++ b := by
  intro fuel
  induction fuel with
  | zero =>
    intro u hlen hu
    omega
  | succ f ih =>
    intro u hlen hu
    match u with
    | [] =>
      have hB := emailAt_boundary loc dm tld v hloc hlocE hdm hdmE htld htw hv
      cases hLc : loc with
      | nil => exact absurd hLc hloc
      | cons l0 loc' =>
        subst hLc
        simp only [List.cons_append] at hB ⊢
        simp only [List.nil_append]
        rw [subEmailGo_step_some f l0 _ _ hB]
        refine ⟨pyTake 2 (ematchStr ⟨l0 :: loc', dm, tld⟩),
          subEmailGo f ((l0 :: (loc' ++ '@' :: (dm ++ '.' :: (tld ++ v)))).drop
            (emLen ⟨l0 :: loc', dm, tld⟩)), ?_⟩
        unfold emailRepl
        simp [List.append_assoc]
    | c :: u' =>
      simp only [List.cons_append] at hlen ⊢
      cases h : emailAt (c :: (u' ++ (loc ++ '@' :: (dm ++ '.' :: (tld ++ v))))) with
      | none =>
        have hlen2 : (u' ++ (loc ++ '@' :: (dm ++ '.' :: (tld ++ v)))).length < f := by
          simp only [List.length_cons] at hlen
          omega
        obtain ⟨a, b, heq⟩ := ih u' hlen2 (lastNotEmailC_tail c u' hu)
        exact ⟨c :: a, b, by rw [subEmailGo_step_none _ _ _ h, heq]; rfl⟩
      | some em =>
        obtain ⟨⟨rest, hrest⟩, -⟩ := emailAt_sound _ _ h
        have h5 := emLen_ge5 _ _ h
        have hklen : emLen em = (ematchStr em).length := (emLen_length em).symm
        have hle : emLen em ≤ (c :: u').length := by
          by_contra hgt
          push_neg at hgt
          obtain ⟨d, hgl⟩ : ∃ d, (c :: u').getLast? = some d := by
            cases hg : (c :: u').getLast? with
            | none => simp [List.getLast?_eq_none_iff] at hg
            | some d => exact ⟨d, rfl⟩
          have hdbad : classE d = false ∧ d ≠ '@' := by
            have := hu
            simp only [lastNotEmailC, hgl, Bool.not_eq_true', Bool.or_eq_false_iff,
              decide_eq_false_iff_not] at this
            exact this
          have hidx : (c :: (u' ++ (loc ++ '@' :: (dm ++ '.' :: (tld
              ++ v)))))[(c :: u').length - 1]? = some d := by
            show ((c :: u') ++ (loc ++ '@' :: (dm ++ '.' :: (tld
              ++ v))))[(c :: u').length - 1]? = some d
            rw [List.getElem?_append_left (by simp)]
            rw [← List.getLast?_eq_getElem?]
            exact hgl
          rcases emailAt_char_at _ em h ((c :: u').length - 1) (by omega) d hidx with
            hc1 | hc1
          · rw [hc1] at hdbad
            exact absurd hdbad.1 (by decide)
          · exact absurd hc1 hdbad.2
        have hover : ematchStr em ++ rest
            = (c :: u') ++ (loc ++ '@' :: (dm ++ '.' :: (tld ++ v))) := by
          rw [← hrest]
          rfl
        obtain ⟨w, hw1, hw2⟩ := append_overlap _ _ _ _ hover (by omega)
        have hwu : lastNotEmailC w = true := by
          cases hwc : w with
          | nil => rfl
          | cons w0 w' =>
            have hgl : w.getLast? = (c :: u').getLast? := by
              rw [hw1]
              exact (List.getLast?_append_of_ne_nil _ (by rw [hwc]; simp)).symm
            rw [← hwc]
            have := hu
            simp only [lastNotEmailC, ← hgl] at this ⊢
            exact this
        have hlenw : (w ++ (loc ++ '@' :: (dm ++ '.' :: (tld ++ v)))).length < f := by
          have e1 := congrArg List.length hw1
          simp only [List.length_append, List.length_cons] at e1 hlen ⊢
          have h5' : 5 ≤ (ematchStr em).length := by rw [← hklen] at *; omega
          omega
        obtain ⟨a, b, heq⟩ := ih w hlenw hwu
        refine ⟨emailRepl em ++ a, b, ?_⟩
        rw [subEmailGo_step_some f c _ em h]
        have hdrop : (c :: (u' ++ (loc ++ '@' :: (dm ++ '.' :: (tld ++ v))))).drop
            (emLen em) = rest := by
          rw [hrest, hklen]
          exact List.drop_left _ _
        rw [hdrop, hw2, heq]
        simp [List.append_assoc]

theorem searchEmail_finds (loc dm tld v : Str)
    (hloc : loc ≠ []) (hlocE : loc.all classE = true)
    (hdm : dm ≠ []) (hdmE : dm.all classE = true)
    (htld : tld ≠ []) (htw : tld.all isWordC = true)
    (hv : headNotClassE v = true) :
    ∀ u : Str, searchEmail (u ++ (loc ++ '@' :: (dm ++ '.' :: (tld ++ v)))) = true := by
  intro u
  induction u with
  | nil =>
    have hB := emailAt_boundary loc dm tld v hloc hlocE hdm hdmE htld htw hv
    cases hLc : loc with
    | nil => exact absurd hLc hloc
    | cons l0 loc' =>
      subst hLc
      simp only [List.cons_append] at hB
      simp only [List.nil_append, List.cons_append]
      show ((emailAt (l0 :: (loc' ++ '@' :: (dm ++ '.' :: (tld ++ v))))).isSome
        || searchEmail (loc' ++ '@' :: (dm ++ '.' :: (tld ++ v)))) = true
      rw [hB]
      simp
  | cons c u' ih =>
    simp only [List.cons_append]
    show ((emailAt (c :: (u' ++ (loc ++ '@' :: (dm ++ '.' :: (tld ++ v)))))).isSome
      || searchEmail (u' ++ (loc ++ '@' :: (dm ++ '.' :: (tld ++ v))))) = true
    rw [ih, Bool.or_true]

/-- C3: for every text decomposing as `u ++ R ++ v` with `R` a digit run of
length 8-10 delimited by word boundaries (the character before `R`, if any,
and the character after `R`, if any, are non-word — the source pattern is
`\b\d{8,10}\b`, and digits are word characters, so this is exactly a
standalone run not embedded in a longer digit run), the redacted text of
`obscure_personal_info` contains `idMask R` — the first 2 and last 2
digits of `R` around the `***` marker — as a substring, and the redaction
log contains `student_id`; the mask survives the later email and phone
passes unconditionally. -/
theorem c3_standalone_id_masked (u R v : Str)
    (h8 : 8 ≤ R.length) (h10 : R.length ≤ 10) (hRd : R.all isDigitC = true)
    (hu : lastNonWord none u = true) (hv : headNonWord v = true) :
    (∃ a b, (obscure_personal_info (u ++ R ++ v)).1 = a ++ idMask R ++ b) ∧
      S "student_id" ∈ (obscure_personal_info (u ++ R ++ v)).2 := by
  have hne : u ++ R ++ v ≠ [] := by
    intro hfalse
    have := congrArg List.length hfalse
    simp only [List.length_append, List.length_nil] at this
    omega
  have hsid : searchID (u ++ R ++ v) = true :=
    searchIDGo_finds R v h8 h10 hRd hv u none hu
  obtain ⟨a1, b1, hab1⟩ := subIDGo_produces R v h8 h10 hRd hv
    ((u ++ R ++ v).length + 1) none u (Nat.lt_succ_self _) hu
  have hsub : subID (u ++ R ++ v) = a1 ++ idMask R ++ b1 := hab1
  obtain ⟨x0, x1, z0, z1, hmask⟩ := idMask_form R h8
  have hsub7 : subID (u ++ R ++ v)
      = a1 ++ x0 :: x1 :: '*' :: '*' :: '*' :: z0 :: z1 :: b1 := by
    rw [hsub, hmask]
    simp
  have hback : ∀ s : Str,
      (∃ a b, s = a ++ x0 :: x1 :: '*' :: '*' :: '*' :: z0 :: z1 :: b) →
      ∃ a b, s = a ++ idMask R ++ b := by
    intro s ⟨a, b, hs⟩
    exact ⟨a, b, by rw [hs, hmask]; simp⟩
  by_cases hse : searchEmail (subID (u ++ R ++ v)) = true
  · obtain ⟨a2, b2, hab2⟩ : ∃ a b, subEmail (subID (u ++ R ++ v))
        = a ++ x0 :: x1 :: '*' :: '*' :: '*' :: z0 :: z1 :: b := by
      rw [hsub7]
      exact subEmailGo_mask x0 x1 z0 z1 _ a1 b1 (Nat.lt_succ_self _)
    by_cases hsp : searchPhone (subEmail (subID (u ++ R ++ v))) = true
    · have hout : obscure_personal_info (u ++ R ++ v)
          = (subPhone (subEmail (subID (u ++ R ++ v))),
             ([S "student_id"] ++ [S "email"]) ++ [S "phone"]) := by
        simp only [obscure_personal_info, if_neg hne, if_pos hsid, if_pos hse,
          if_pos hsp]
      obtain ⟨a3, b3, hab3⟩ : ∃ a b, subPhone (subEmail (subID (u ++ R ++ v)))
          = a ++ x0 :: x1 :: '*' :: '*' :: '*' :: z0 :: z1 :: b := by
        rw [hab2]
        exact subPhoneGo_mask x0 x1 z0 z1 _ a2 b2 (Nat.lt_succ_self _)
      rw [hout]
      exact ⟨hback _ ⟨a3, b3, hab3⟩, by simp⟩
    · have hout : obscure_personal_info (u ++ R ++ v)
          = (subEmail (subID (u ++ R ++ v)), [S "student_id"] ++ [S "email"]) := by
        simp only [obscure_personal_info, if_neg hne, if_pos hsid, if_pos hse,
          if_neg hsp]
      rw [hout]
      exact ⟨hback _ ⟨a2, b2, hab2⟩, by simp⟩
  · by_cases hsp : searchPhone (subID (u ++ R ++ v)) = true
    · have hout : obscure_personal_info (u ++ R ++ v)
          = (subPhone (subID (u ++ R ++ v)), [S "student_id"] ++ [S "phone"]) := by
        simp only [obscure_personal_info, if_neg hne, if_pos hsid, if_neg hse,
          if_pos hsp]
      obtain ⟨a3, b3, hab3⟩ : ∃ a b, subPhone (subID (u ++ R ++ v))
          = a ++ x0 :: x1 :: '*' :: '*' :: '*' :: z0 :: z1 :: b := by
        rw [hsub7]
        exact subPhoneGo_mask x0 x1 z0 z1 _ a1 b1 (Nat.lt_succ_self _)
      rw [hout]
      exact ⟨hback _ ⟨a3, b3, hab3⟩, by simp⟩
    · have hout : obscure_personal_info (u ++ R ++ v)
          = (subID (u ++ R ++ v), [S "student_id"]) := by
        simp only [obscure_personal_info, if_neg hne, if_pos hsid, if_neg hse,
          if_neg hsp]
      rw [hout]
      exact ⟨⟨a1, b1, hsub⟩, by simp⟩

/-- C3, witness: the amendment machinery at the concrete text
`"id 12345678 ok"`, whose digit run is standalone. -/
theorem c3_witness :
    (8 ≤ (S "12345678").length ∧ (S "12345678").length ≤ 10 ∧
      (S "12345678").all isDigitC = true ∧ lastNonWord none (S "id ") = true ∧
      headNonWord (S " ok") = true) ∧
    ((∃ a b, (obscure_personal_info (S "id " ++ S "12345678" ++ S " ok")).1
        = a ++ idMask (S "12345678") ++ b) ∧
      S "student_id" ∈ (obscure_personal_info (S "id " ++ S "12345678" ++ S " ok")).2) :=
  ⟨by decide, c3_standalone_id_masked (S "id ") (S "12345678") (S " ok")
    (by decide) (by decide) (by decide) (by decide) (by decide)⟩

/-- C4, amended: redaction keeps `***@` followed by the intact domain/TLD
of a well-formed email, and logs `email`, only when the earlier ID pass
and the later phone pass do not interfere (the original claim holds for
no-digit domains but fails on numeric ones, which the ID pass mangles
first — see the counterexample).  The decomposition hypotheses say the
text contains `loc@dm.tld` with regex-matching parts and boundaries that
keep the match exactly there. -/
theorem c4_amended (u loc dm tld v : Str)
    (hloc : loc ≠ []) (hlocE : loc.all classE = true)
    (hdm : dm ≠ []) (hdmE : dm.all classE = true)
    (htld : tld ≠ []) (htw : tld.all isWordC = true)
    (hu : lastNotEmailC u = true) (hv : headNotClassE v = true)
    (hid : searchID (u ++ (loc ++ '@' :: (dm ++ '.' :: (tld ++ v)))) = false)
    (hph : searchPhone (subEmail (u ++ (loc ++ '@' :: (dm ++ '.' :: (tld ++ v)))))
      = false) :
    (∃ a b, (obscure_personal_info (u ++ (loc ++ '@' :: (dm ++ '.' :: (tld ++ v))))).1
        = a ++ (S "***@" ++ dm ++ '.' :: tld) ++ b) ∧
      S "email" ∈ (obscure_personal_info (u ++ (loc ++ '@' :: (dm ++ '.'
        :: (tld ++ v))))).2 := by
  have hne : u ++ (loc ++ '@' :: (dm ++ '.' :: (tld ++ v))) ≠ [] := by
    intro hfalse
    have := congrArg List.length hfalse
    simp only [List.length_append, List.length_cons, List.length_nil] at this
    omega
  have hse : searchEmail (u ++ (loc ++ '@' :: (dm ++ '.' :: (tld ++ v)))) = true :=
    searchEmail_finds loc dm tld v hloc hlocE hdm hdmE htld htw hv u
  have hout : obscure_personal_info (u ++ (loc ++ '@' :: (dm ++ '.' :: (tld ++ v))))
      = (subEmail (u ++ (loc ++ '@' :: (dm ++ '.' :: (tld ++ v)))),
         [] ++ [S "email"]) := by
    simp only [obscure_personal_info, if_neg hne,
      if_neg (show ¬searchID (u ++ (loc ++ '@' :: (dm ++ '.' :: (tld ++ v)))) = true
        by simp [hid]),
      if_pos hse,
      if_neg (show ¬searchPhone (subEmail (u ++ (loc ++ '@' :: (dm ++ '.'
        :: (tld ++ v))))) = true by simp [hph])]
  obtain ⟨a, b, hab⟩ := subEmailGo_finds loc dm tld v hloc hlocE hdm hdmE htld htw hv
    ((u ++ (loc ++ '@' :: (dm ++ '.' :: (tld ++ v)))).length + 1) u
    (Nat.lt_succ_self _) hu
  rw [hout]
  exact ⟨⟨a, b, hab⟩, by simp⟩

/-- C4, counterexample: `"ab@12345678.com"` contains the well-formed email
`ab@12345678.com` (each decomposition hypothesis of the claim holds), yet
the redacted output contains no `"***@"` at all and the log lacks
`email`: the ID pass runs first and masks the numeric domain, after which
the email pattern no longer matches. -/
theorem c4_counterexample :
    (S "ab" ≠ [] ∧ (S "ab").all classE = true ∧
      S "12345678" ≠ [] ∧ (S "12345678").all classE = true ∧
      S "com" ≠ [] ∧ (S "com").all isWordC = true ∧
      S "ab@12345678.com"
        = [] ++ (S "ab" ++ '@' :: (S "12345678" ++ '.' :: (S "com" ++ [])))) ∧
    containsSub (obscure_personal_info (S "ab@12345678.com")).1 (S "***@") = false ∧
    S "email" ∉ (obscure_personal_info (S "ab@12345678.com")).2 := by
  refine ⟨by decide, by decide, by decide⟩

/-- C4, witness for the amended theorem at the concrete text
`"ab@cd.ef"`, where neither the ID pass nor the phone pass interferes. -/
theorem c4_witness :
    (∃ a b, (obscure_personal_info ([] ++ (S "ab" ++ '@' :: (S "cd" ++ '.'
        :: (S "ef" ++ []))))).1
      = a ++ (S "***@" ++ S "cd" ++ '.' :: S "ef") ++ b) ∧
    S "email" ∈ (obscure_personal_info ([] ++ (S "ab" ++ '@' :: (S "cd" ++ '.'
        :: (S "ef" ++ []))))).2 :=
  c4_amended [] (S "ab") (S "cd") (S "ef") [] (by decide) (by decide) (by decide)
    (by decide) (by decide) (by decide) (by decide) (by decide) (by decide) (by decide)
